import Mathlib

/-!
A verification development for the `divine` container (container.go).

The Go package keeps two maps keyed by `reflect.Type` and resolves values
through reflection.  The embedding below keeps exactly the observations the
code makes of the reflective facility:

* of a `reflect.Type`: its identity (`==`), its printed form (`%v`), whether its
  kind is `Interface`, and its method set (what `Implements` inspects);
* of a function value: `NumIn`/`In(i)` (the list `ins`), `Out(0)` and the first
  result of `Call`;
* of an `interface{}` value: its dynamic type and some payload (values are
  non-nil).

Go maps become total functions into `Option`; a mutated receiver becomes a
returned state; the invocation of a function value through `Call` is recorded in
an event list so that "was invoked" is observable.  Recursion of `ByType` is
bounded by a fuel argument: `none` stands for "the recursion did not finish
within this depth".  Function bodies are pure functions of their arguments
(they do not re-enter the container).
-/

namespace Divine

/-- A `reflect.Type`.  `id` stands for the identity of the type (two distinct
types may print alike), `name` is what `%v` prints, `iface` says whether the kind
is `Interface`, `methods` is the method set (name and signature of each method). -/
structure Ty where
  id : Nat
  name : String
  iface : Bool
  methods : List String
deriving DecidableEq

/-- A non-nil `interface{}` value: its dynamic type (`reflect.TypeOf`), which is
never an interface type, and its contents. -/
structure Val where
  ty : Ty
  payload : String
  concrete : ty.iface = false
deriving DecidableEq

/-- A function value with at least one result, as `ProvideLazily` needs it:
`ins` is `In(0..NumIn-1)`, `out` is `Out(0)`, `body` is the first result of
`Call`.  `id` names the function in the event list. -/
structure Factory where
  id : Nat
  ins : List Ty
  out : Ty
  body : List Val → Val

/-- A function value handed to `Inject`: only its parameter types are inspected
and its results are discarded. -/
structure Dependent where
  id : Nat
  ins : List Ty

/-- What `reflect.Value.Call` did, in order. -/
inductive Event where
  | factory (id : Nat) (need : Ty) (args : List Val)
  | dependent (id : Nat) (args : List Val)
deriving DecidableEq

deriving instance DecidableEq for Except

/-- The struct `simple`: the two maps. -/
structure simple where
  static : Ty → Option Val
  factories : Ty → Option Factory

/-- The struct `InjectError`; `Err` is the text of the wrapped error. -/
structure InjectError where
  Requested : Ty
  Err : String
deriving DecidableEq

/-- The interface `Container` with its two implementations: `*simple`, and
`*wrapped` whose embedded container is the fresh registry made by `Wrap`. -/
inductive Container where
  | simple (c : simple)
  | wrapped (loc : simple) (parent : Container)

/-- Map assignment `m[k] = v`. -/
def mapSet {α : Type} (m : Ty → Option α) (k : Ty) (v : α) : Ty → Option α :=
  fun t => if t = k then some v else m t

/-- The assignments `m[k] = v` for every `k` of a list. -/
def mapSetAll {α : Type} (m : Ty → Option α) (ks : List Ty) (v : α) : Ty → Option α :=
  fun t => if t ∈ ks then some v else m t

/-- The method `need.Implements(t)` of reflect: it panics (`none`) when `t` is not
an interface type, and otherwise tells whether the method set of `need` contains
every method of `t`. -/
def Ty.Implements (need t : Ty) : Option Bool :=
  if t.iface then some (t.methods.all (fun m => need.methods.contains m)) else none

/-- The function `isCircular`: some parameter of `signature` has a registered
factory that takes `need`. -/
def isCircular (need : Ty) (signature : List Ty) (factories : Ty → Option Factory) : Bool :=
  signature.any (fun param =>
    match factories param with
    | none => false
    | some factory => factory.ins.any (fun dependentParam => dependentParam == need))

/-- The text built by `fmt.Errorf` in `Provide`. -/
def errNotImplement (need t : Ty) : String :=
  need.name ++ " does not implement " ++ t.name

/-- The text built by `fmt.Errorf` when no provider is found. -/
def errNotFound (need : Ty) : String :=
  "You can't always get what you want (" ++ need.name ++ ")"

/-- The text built by `fmt.Errorf` when the cycle guard trips. -/
def errCircular (need param : Ty) : String :=
  "Circular dependency for " ++ need.name ++ ": it requires " ++ param.name ++
    " which in turn requires " ++ need.name

/-- The method `InjectError.Error`. -/
def InjectError.Error (ie : InjectError) : String :=
  "could not fulfill request for " ++ ie.Requested.name ++ ": " ++ ie.Err

/-- The function `New`. -/
def New : simple := { static := fun _ => none, factories := fun _ => none }

/-- The function `Wrap`. -/
def Wrap (c : Container) : Container := .wrapped New c

/-- The loop of `simple.Provide` over the contracts: it stops at the first one
that `need` does not implement and returns the error built there. -/
def provideAs (need : Ty) (item : Val) : List Ty → simple → Option (simple × Option String)
  | [], c => some (c, none)
  | t :: rest, c =>
    match need.Implements t with
    | none => none
    | some false => some (c, some (errNotImplement need t))
    | some true => provideAs need item rest { c with static := mapSet c.static t item }

/-- The method `simple.Provide`; `none` is a panic inside reflect. -/
def simple.Provide (c : simple) (item : Val) (contracts : List Ty) :
    Option (simple × Option String) :=
  if contracts.length = 0 then
    some ({ c with static := mapSet c.static item.ty item }, none)
  else
    provideAs item.ty item contracts c

/-- The method `simple.ProvideLazily`. -/
def simple.ProvideLazily (c : simple) (factory : Factory) : simple :=
  { c with factories := mapSet c.factories factory.out factory }

/-- The parameter loop of `simple.ByType`, with the recursive call abstracted as
`resolve`: for each parameter the cycle guard is evaluated (over the whole
signature), then the parameter is resolved; the first failure ends the loop. -/
def resolveParams (resolve : simple → Ty → Option (simple × List Event × Except String Val))
    (need : Ty) (signature : List Ty) :
    List Ty → simple → Option (simple × List Event × Except String (List Val))
  | [], c => some (c, [], .ok [])
  | param :: rest, c =>
    if isCircular need signature c.factories then
      some (c, [], .error (errCircular need param))
    else
      match resolve c param with
      | none => none
      | some (c1, ev1, .error err) => some (c1, ev1, .error err)
      | some (c1, ev1, .ok p) =>
        match resolveParams resolve need signature rest c1 with
        | none => none
        | some (c2, ev2, .error err) => some (c2, ev1 ++ ev2, .error err)
        | some (c2, ev2, .ok ps) => some (c2, ev1 ++ ev2, .ok (p :: ps))

/-- The method `simple.ByType`, with recursion depth bounded by the first
argument. -/
def simple.ByType : Nat → simple → Ty → Option (simple × List Event × Except String Val)
  | 0, _, _ => none
  | fuel + 1, c, need =>
    match c.static need with
    | some provided => some (c, [], .ok provided)
    | none =>
      match c.factories need with
      | none => some (c, [], .error (errNotFound need))
      | some factory =>
        match resolveParams (simple.ByType fuel) need factory.ins factory.ins c with
        | none => none
        | some (c1, ev, .error err) => some (c1, ev, .error err)
        | some (c1, ev, .ok provided) =>
          let factoried := factory.body provided
          some ({ c1 with static := mapSet c1.static need factoried },
            ev ++ [Event.factory factory.id need provided], .ok factoried)

/-- The methods `ByType` of the two containers: `*simple` as above, `*wrapped`
tries its own registry and on an error asks the parent. -/
def Container.ByType (fuel : Nat) :
    Container → Ty → Option (Container × List Event × Except String Val)
  | .simple c, need =>
    match simple.ByType fuel c need with
    | none => none
    | some (c1, ev, r) => some (.simple c1, ev, r)
  | .wrapped loc parent, need =>
    match simple.ByType fuel loc need with
    | none => none
    | some (loc1, ev, .ok value) => some (.wrapped loc1 parent, ev, .ok value)
    | some (loc1, ev, .error _) =>
      match Container.ByType fuel parent need with
      | none => none
      | some (parent1, ev2, r) => some (.wrapped loc1 parent1, ev ++ ev2, r)

/-- The parameter loop of `Inject`. -/
def injectParams (fuel : Nat) :
    List Ty → Container → Option (Container × List Event × Except InjectError (List Val))
  | [], c => some (c, [], .ok [])
  | param :: rest, c =>
    match Container.ByType fuel c param with
    | none => none
    | some (c1, ev1, .error err) => some (c1, ev1, .error { Requested := param, Err := err })
    | some (c1, ev1, .ok p) =>
      match injectParams fuel rest c1 with
      | none => none
      | some (c2, ev2, .error ie) => some (c2, ev1 ++ ev2, .error ie)
      | some (c2, ev2, .ok ps) => some (c2, ev1 ++ ev2, .ok (p :: ps))

/-- The function `Inject`: the returned error is `none` for Go's `nil`. -/
def Inject (fuel : Nat) (c : Container) (d : Dependent) :
    Option (Container × List Event × Option InjectError) :=
  match injectParams fuel d.ins c with
  | none => none
  | some (c1, ev, .error ie) => some (c1, ev, some ie)
  | some (c1, ev, .ok provided) => some (c1, ev ++ [Event.dependent d.id provided], none)

/-- The methods `Provide` of the two containers: `*wrapped` has the method of its
embedded registry, so the parent is not touched. -/
def Container.Provide : Container → Val → List Ty → Option (Container × Option String)
  | .simple c, item, contracts =>
    match c.Provide item contracts with
    | none => none
    | some (c1, err) => some (.simple c1, err)
  | .wrapped loc parent, item, contracts =>
    match loc.Provide item contracts with
    | none => none
    | some (loc1, err) => some (.wrapped loc1 parent, err)

/-- The methods `ProvideLazily` of the two containers. -/
def Container.ProvideLazily : Container → Factory → Container
  | .simple c, factory => .simple (c.ProvideLazily factory)
  | .wrapped loc parent, factory => .wrapped (loc.ProvideLazily factory) parent

/-- The parent of a wrapping container. -/
def Container.parentOf : Container → Option Container
  | .simple _ => none
  | .wrapped _ parent => some parent

/-! ## The types and values of container_test.go -/

/-- The struct type `Pizza` of the tests, with its method `Slices`. -/
def Pizza : Ty := { id := 1, name := "divine_test.Pizza", iface := false, methods := ["Slices() int8"] }

/-- The interface `Sliced` of the tests. -/
def Sliced : Ty := { id := 2, name := "divine_test.Sliced", iface := true, methods := ["Slices() int8"] }

/-- The interface `Shared` of the tests. -/
def Shared : Ty := { id := 3, name := "divine_test.Shared", iface := true, methods := ["Share() bool"] }

/-- The string type `Topping` of the tests. -/
def Topping : Ty := { id := 4, name := "divine_test.Topping", iface := false, methods := [] }

/-- The value `Pizza{Toppings: t}`. -/
def pizzaOf (t : String) : Val := { ty := Pizza, payload := t, concrete := rfl }

/-- The value `Topping(t)`. -/
def toppingOf (t : String) : Val := { ty := Topping, payload := t, concrete := rfl }

/-- The factory `mushroomPizzaCreator` of the tests: `func() Pizza`. -/
def mushroomPizzaCreator : Factory :=
  { id := 10, ins := [], out := Pizza, body := fun _ => pizzaOf "mushrooms" }

/-- The factory `pizzaCreator` of the tests: `func(topping Topping) Pizza`. -/
def pizzaCreator : Factory :=
  { id := 11, ins := [Topping], out := Pizza,
    body := fun args => match args with
      | [t] => pizzaOf t.payload
      | _ => pizzaOf "" }

/-- The self-referential factory of the tests: `func(p Pizza) Pizza`. -/
def circularPizzaCreator : Factory :=
  { id := 12, ins := [Pizza], out := Pizza,
    body := fun args => match args with
      | [p] => pizzaOf p.payload
      | _ => pizzaOf "" }

/-- A dependent `func(p Pizza)`. -/
def pizzaEater : Dependent := { id := 20, ins := [Pizza] }

/-- A dependent `func(s Sliced)`. -/
def slicedPizzaEater : Dependent := { id := 21, ins := [Sliced] }

/-- The registry of the test "when the factory requires a dependency":
`Provide(Topping("pepperoni"))` then `ProvideLazily(pizzaCreator)`. -/
def pepperoniRegistry : simple :=
  simple.ProvideLazily
    { New with static := mapSet New.static Topping (toppingOf "pepperoni") } pizzaCreator

/-- The container of the test "requesting a dependency / by default":
`Provide(Pizza{})` on a new registry. -/
def pizzaRegistry : simple := { New with static := mapSet New.static Pizza (pizzaOf "") }

/-- The parent of the test "when wrapping another container":
`Provide(mushroomPizza, Sliced)`. -/
def slicedRegistry : simple :=
  { New with static := mapSet New.static Sliced (pizzaOf "mushroom") }

/-- The local registry of the wrapper in that test: `Provide(pepperoniPizza)`. -/
def pepperoniPizzaRegistry : simple :=
  { New with static := mapSet New.static Pizza (pizzaOf "pepperoni") }

/-- The registry of the test "which is instantiated lazily / by default":
`ProvideLazily(mushroomPizzaCreator)`. -/
def mushroomRegistry : simple := New.ProvideLazily mushroomPizzaCreator

/-- A registry where `Pizza` has both a static value and a factory:
`Provide(pepperoniPizza)` and `ProvideLazily(mushroomPizzaCreator)`. -/
def shadowedRegistry : simple := pepperoniPizzaRegistry.ProvideLazily mushroomPizzaCreator

/-- The registry after `Provide(Pizza{}, Sliced)` on a new registry. -/
def slicedPlainRegistry : simple :=
  { New with static := mapSet New.static Sliced (pizzaOf "") }

/-- The registry `mushroomRegistry` once the pizza made by the factory is stored. -/
def mushroomStoredRegistry : simple :=
  { mushroomRegistry with
    static := mapSet mushroomRegistry.static Pizza (pizzaOf "mushrooms") }

/-! ## Further types, factories and registries used as examples -/

/-- A struct type `Sauce`, not in the tests. -/
def Sauce : Ty := { id := 5, name := "divine_test.Sauce", iface := false, methods := [] }

/-- A factory `func(p Pizza) Sauce`. -/
def sauceCreator : Factory :=
  { id := 13, ins := [Pizza], out := Sauce,
    body := fun _ => { ty := Sauce, payload := "tomato", concrete := rfl } }

/-- A factory `func(t Topping, s Sauce) Pizza`. -/
def toppedPizzaCreator : Factory :=
  { id := 14, ins := [Topping, Sauce], out := Pizza,
    body := fun args => match args with
      | [t, _] => pizzaOf t.payload
      | _ => pizzaOf "" }

/-- The registry after `ProvideLazily(toppedPizzaCreator)` and
`ProvideLazily(sauceCreator)`: `Pizza` needs `Topping` and `Sauce`, `Sauce` needs
`Pizza`, and `Topping` has no provider. -/
def sauceCycleRegistry : simple :=
  (New.ProvideLazily toppedPizzaCreator).ProvideLazily sauceCreator

/-- The same registry after `Provide(Topping("pepperoni"))`. -/
def toppedSauceCycleRegistry : simple :=
  { sauceCycleRegistry with
    static := mapSet sauceCycleRegistry.static Topping (toppingOf "pepperoni") }

/-- A factory `func(s Sauce) Topping`. -/
def toppingCreator : Factory :=
  { id := 15, ins := [Sauce], out := Topping, body := fun _ => toppingOf "basil" }

/-- A factory `func(s Sliced, t Topping) Pizza`. -/
def slicedToppedPizzaCreator : Factory :=
  { id := 16, ins := [Sliced, Topping], out := Pizza,
    body := fun args => match args with
      | [_, t] => pizzaOf t.payload
      | _ => pizzaOf "" }

/-- A registry with the three factories `Pizza <- Topping <- Sauce <- Pizza`, each
taking only the next descriptor. -/
def threeCycleRegistry : simple :=
  ((New.ProvideLazily pizzaCreator).ProvideLazily toppingCreator).ProvideLazily sauceCreator

/-- The same cycle, where the factory of `Pizza` first takes a `Sliced`, which has
no provider. -/
def blockedCycleRegistry : simple :=
  ((New.ProvideLazily slicedToppedPizzaCreator).ProvideLazily toppingCreator).ProvideLazily
    sauceCreator

/-- The registry after `Provide(Topping("pepperoni"))` on a new registry. -/
def toppingRegistry : simple :=
  { New with static := mapSet New.static Topping (toppingOf "pepperoni") }

/-- A dependent `func(p Pizza, t Topping)`. -/
def pizzaAndToppingEater : Dependent := { id := 22, ins := [Pizza, Topping] }

/-- A second type that prints as `divine_test.Topping`, as the two `Topping` types
declared in different test closures do. -/
def ToppingAlike : Ty :=
  { id := 6, name := "divine_test.Topping", iface := false, methods := [] }

/-- A factory `func(t ToppingAlike) Topping`. -/
def toppingFromAlike : Factory :=
  { id := 17, ins := [ToppingAlike], out := Topping, body := fun _ => toppingOf "basil" }

/-- A factory `func(s Sauce) ToppingAlike`. -/
def alikeFromSauce : Factory :=
  { id := 18, ins := [Sauce], out := ToppingAlike,
    body := fun _ => { ty := ToppingAlike, payload := "basil", concrete := rfl } }

/-- A factory `func(t ToppingAlike) Sauce`. -/
def sauceFromAlike : Factory :=
  { id := 19, ins := [ToppingAlike], out := Sauce,
    body := fun _ => { ty := Sauce, payload := "tomato", concrete := rfl } }

/-- A registry where `Topping` needs `ToppingAlike`, and `ToppingAlike` and `Sauce`
need each other. -/
def alikeRegistry : simple :=
  ((New.ProvideLazily toppingFromAlike).ProvideLazily alikeFromSauce).ProvideLazily
    sauceFromAlike

/-- A factory `func(s Sliced, x Sauce) Topping`. -/
def slicedSauceToppingCreator : Factory :=
  { id := 23, ins := [Sliced, Sauce], out := Topping, body := fun _ => toppingOf "basil" }

/-- A factory `func(s Sliced, p Pizza) Sauce`. -/
def slicedPizzaSauceCreator : Factory :=
  { id := 24, ins := [Sliced, Pizza], out := Sauce,
    body := fun _ => { ty := Sauce, payload := "tomato", concrete := rfl } }

/-- A registry with the cycle `Pizza -> Topping -> Sauce -> Pizza` running through
the second parameter of each factory, the first parameter `Sliced` being
provided. -/
def laterCycleRegistry : simple :=
  ((slicedPlainRegistry.ProvideLazily slicedToppedPizzaCreator).ProvideLazily
    slicedSauceToppingCreator).ProvideLazily slicedPizzaSauceCreator

/-! ## Predicates used to state the properties -/

/-- The frame of a resolution: the factory map is the same and every static entry
is kept. -/
def Frame (c c1 : simple) : Prop :=
  c1.factories = c.factories ∧ ∀ k v, c.static k = some v → c1.static k = some v

/-- The parameters `ps` are resolved one after the other by `simple.ByType` with
depth bound `n`, all successfully, each resolution starting from the registry the
previous one left: `c1` is the final registry, `ev` the calls made, `vs` the
values in parameter order. -/
inductive ResolvesAll (n : Nat) : simple → List Ty → simple → List Event → List Val → Prop
  | nil (c : simple) : ResolvesAll n c [] c [] []
  | cons {c c1 c2 : simple} {p : Ty} {ps : List Ty} {ev1 ev2 : List Event} {v : Val}
      {vs : List Val} :
      simple.ByType n c p = some (c1, ev1, .ok v) → ResolvesAll n c1 ps c2 ev2 vs →
      ResolvesAll n c (p :: ps) c2 (ev1 ++ ev2) (v :: vs)

/-- The same for a container: the parameters `ps` are resolved in order by
`Container.ByType`, all successfully. -/
inductive ContainerResolvesAll (n : Nat) :
    Container → List Ty → Container → List Event → List Val → Prop
  | nil (c : Container) : ContainerResolvesAll n c [] c [] []
  | cons {c c1 c2 : Container} {p : Ty} {ps : List Ty} {ev1 ev2 : List Event} {v : Val}
      {vs : List Val} :
      Container.ByType n c p = some (c1, ev1, .ok v) → ContainerResolvesAll n c1 ps c2 ev2 vs →
      ContainerResolvesAll n c (p :: ps) c2 (ev1 ++ ev2) (v :: vs)

/-- Whether an event is the call of a dependent by `Inject`. -/
def Event.isDependent : Event → Bool
  | .dependent _ _ => true
  | .factory _ _ _ => false

/-- Whether an event is the call of the factory registered for `need`. -/
def Event.isFactoryFor (need : Ty) : Event → Bool
  | .factory _ k _ => k == need
  | .dependent _ _ => false

/-- The number of calls of the factory registered for `need`. -/
def calls (need : Ty) (ev : List Event) : Nat :=
  ev.countP (Event.isFactoryFor need)

/-- The container made of the registries `locals`, outermost wrapper first, around
the registry `root`. -/
def chain (locals : List simple) (root : simple) : Container :=
  locals.foldr Container.wrapped (Container.simple root)

/-- Every registry of the list fails on `D` (within depth `n`): the second list
holds the registries as the failed resolutions leave them, the third the calls
made. -/
inductive FailAll (n : Nat) (D : Ty) : List simple → List simple → List Event → Prop
  | nil : FailAll n D [] [] []
  | cons {l l1 : simple} {ls ls1 : List simple} {ev1 ev2 : List Event} {e : String} :
      simple.ByType n l D = some (l1, ev1, .error e) → FailAll n D ls ls1 ev2 →
      FailAll n D (l :: ls) (l1 :: ls1) (ev1 ++ ev2)

/-- No event of the list is the call of a dependent. -/
def NoDependent (ev : List Event) : Prop := ∀ e ∈ ev, e.isDependent = false

/-- The registry of a container itself: the one `Provide` and `ProvideLazily`
write to, and the first one `ByType` asks. -/
def Container.own : Container → Divine.simple
  | .simple c => c
  | .wrapped loc _ => loc

/-- One if `R` has no static value in `c` and has one in `c1`, zero otherwise. -/
def became (c c1 : simple) (R : Ty) : Nat :=
  if (c.static R).isNone && (c1.static R).isSome then 1 else 0

/-- What a run of resolutions that leads from `c` to `c1` with the calls `ev` does:
it keeps the factory map and the static entries, it calls the factory of a
descriptor once if the descriptor gets its static value during the run and not
at all otherwise, and a static value that appears is the result of a call of
the factory registered for its descriptor. -/
def Trace (c c1 : simple) (ev : List Event) : Prop :=
  Frame c c1 ∧ (∀ R, calls R ev = became c c1 R) ∧
    ∀ R v, c.static R = none → c1.static R = some v →
      ∃ f args, c.factories R = some f ∧ Event.factory f.id R args ∈ ev ∧ v = f.body args

/-- The registry `c2` is reached from `c` by a sequence of `ByType` calls, which
made the calls `ev`. -/
inductive Later : simple → simple → List Event → Prop
  | refl (c : simple) : Later c c []
  | byType {c c1 c2 : simple} {ev ev2 : List Event} (n : Nat) (t : Ty)
      (r : Except String Val) :
      Later c c1 ev → simple.ByType n c1 t = some (c2, ev2, r) → Later c c2 (ev ++ ev2)

/-- The container `C2` is reached from `C` by a sequence of `ByType` and `Inject`
calls. -/
inductive ContainerLater : Container → Container → Prop
  | refl (C : Container) : ContainerLater C C
  | byType {C C1 C2 : Container} (n : Nat) (t : Ty) (ev : List Event)
      (r : Except String Val) :
      ContainerLater C C1 → Container.ByType n C1 t = some (C2, ev, r) → ContainerLater C C2
  | inject {C C1 C2 : Container} (n : Nat) (d : Dependent) (ev : List Event)
      (r : Option InjectError) :
      ContainerLater C C1 → Inject n C1 d = some (C2, ev, r) → ContainerLater C C2

/-- The descriptors of `stack` are being resolved: none has a static value, each
has a factory, and each factory has a parameter that is in `stack` or is `cur`. -/
def Pending (stack : List Ty) (c : simple) (cur : Ty) : Prop :=
  ∀ S ∈ stack, c.static S = none ∧
    ∃ f, c.factories S = some f ∧ ∃ Q ∈ f.ins, Q ∈ stack ∨ Q = cur

/-- The part of `Pending` that does not depend on the static map, for all the
parameters `ps` at once. -/
def Closed (stack : List Ty) (factories : Ty → Option Factory) (ps : List Ty) : Prop :=
  ∀ S ∈ stack, ∃ f, factories S = some f ∧ ∀ p ∈ ps, ∃ Q ∈ f.ins, Q ∈ stack ∨ Q = p

/-- The frame of a call on a container: same shape, and in every registry of the
chain the factory map is the same and every static entry is kept. -/
def ContainerFrame : Container → Container → Prop
  | .simple c, .simple c1 => Frame c c1
  | .wrapped loc parent, .wrapped loc1 parent1 => Frame loc loc1 ∧ ContainerFrame parent parent1
  | _, _ => False

/-- The dependency graph of a registry: `t` has a factory and `p` is one of its
parameter types. -/
def DependsOn (c : simple) (t p : Ty) : Prop :=
  ∃ f, c.factories t = some f ∧ p ∈ f.ins

/-- A result of `ByType` that is a value or a not-found error. -/
def ValueOrNotFound (r : Except String Val) : Prop :=
  (∃ v, r = .ok v) ∨ ∃ q, r = .error (errNotFound q)

/-- Depth `n` is enough to resolve `t` from every registry with the factories of
`c`, and the result is a value or a not-found error. -/
def ResolvesWithin (c : simple) (n : Nat) (t : Ty) : Prop :=
  ∀ c2 : simple, c2.factories = c.factories →
    ∃ c1 ev r, simple.ByType n c2 t = some (c1, ev, r) ∧ ValueOrNotFound r

/-- Where an error `e` of a resolution of `D` in the registry `c` comes from: it is
the not-found error of a descriptor `u` without provider, which is `D` or a
parameter of a registered factory, or it is the circular-dependency error raised
by the guard of a descriptor `u` one of whose parameters has a factory taking
`u`, naming the first parameter of the factory of `u`. -/
def ErrorOrigin (c : simple) (D : Ty) (e : String) (u : Ty) : Prop :=
  (e = errNotFound u ∧ c.static u = none ∧ c.factories u = none ∧
      (u = D ∨ ∃ s g, c.factories s = some g ∧ u ∈ g.ins)) ∨
    (∃ g q rest, c.factories u = some g ∧ g.ins = q :: rest ∧
      isCircular u g.ins c.factories = true ∧ e = errCircular u q)

/-! ## Registration: `Provide` -/

@[simp] theorem mapSet_same {α : Type} (m : Ty → Option α) (k : Ty) (v : α) :
    mapSet m k v k = some v := by
  simp [mapSet]

theorem mapSet_other {α : Type} (m : Ty → Option α) (k t : Ty) (v : α) (h : t ≠ k) :
    mapSet m k v t = m t := by
  simp [mapSet, h]

theorem mapSetAll_nil {α : Type} (m : Ty → Option α) (v : α) : mapSetAll m [] v = m := by
  funext t
  simp [mapSetAll]

theorem mapSetAll_cons {α : Type} (m : Ty → Option α) (k : Ty) (ks : List Ty) (v : α) :
    mapSetAll (mapSet m k v) ks v = mapSetAll m (k :: ks) v := by
  funext t
  by_cases h1 : t ∈ ks <;> by_cases h2 : t = k <;> simp [mapSetAll, mapSet, h1, h2]

/-- A satisfied contract is an interface type, so it differs from the dynamic
type of any value. -/
theorem implements_ne_concrete (v : Val) (t : Ty) (h : v.ty.Implements t = some true) :
    t ≠ v.ty := by
  intro e
  have hc := v.concrete
  simp [Ty.Implements, e, hc] at h

/-- The contract loop run over satisfied contracts `pre` followed by anything:
it behaves as the loop over the rest, started with `pre` already registered. -/
theorem provideAs_append (need : Ty) (item : Val) (pre rest : List Ty)
    (h : ∀ t ∈ pre, need.Implements t = some true) (c : simple) :
    provideAs need item (pre ++ rest) c =
      provideAs need item rest { c with static := mapSetAll c.static pre item } := by
  induction pre generalizing c with
  | nil => simp [mapSetAll_nil]
  | cons t pre ih =>
    have ht : need.Implements t = some true := h t (by simp)
    have hpre : ∀ u ∈ pre, need.Implements u = some true := fun u hu => h u (by simp [hu])
    have step : provideAs need item (t :: (pre ++ rest)) c =
        provideAs need item (pre ++ rest) { c with static := mapSet c.static t item } := by
      simp [provideAs, ht]
    rw [List.cons_append, step, ih hpre]
    simp [mapSetAll_cons]

/-- A list of interface types of which one is not implemented splits at the
first one that is not. -/
theorem first_unsatisfied (need : Ty) (contracts : List Ty)
    (hi : ∀ t ∈ contracts, t.iface = true)
    (h : ∃ t ∈ contracts, need.Implements t = some false) :
    ∃ pre t post, contracts = pre ++ t :: post ∧
      (∀ u ∈ pre, need.Implements u = some true) ∧ need.Implements t = some false := by
  induction contracts with
  | nil => simp at h
  | cons a rest ih =>
    by_cases ha : need.Implements a = some false
    · exact ⟨[], a, rest, by simp, by simp, ha⟩
    · have hat : need.Implements a = some true := by
        have hia := hi a (by simp)
        simp only [Ty.Implements, hia, if_true, Option.some.injEq] at ha ⊢
        simpa using ha
      obtain ⟨t, ht, hf⟩ := h
      have ht2 : t ∈ rest := by
        rcases List.mem_cons.1 ht with e | e
        · exact absurd (e ▸ hf) ha
        · exact e
      obtain ⟨pre, u, post, e, hp, hu⟩ := ih (fun x hx => hi x (by simp [hx])) ⟨t, ht2, hf⟩
      refine ⟨a :: pre, u, post, by simp [e], ?_, hu⟩
      intro x hx
      rcases List.mem_cons.1 hx with e2 | e2
      · exact e2 ▸ hat
      · exact hp x e2

/-- The contract loop over satisfied contracts registers the item under each of
them and returns no error. -/
theorem provideAs_all (need : Ty) (item : Val) (contracts : List Ty)
    (h : ∀ t ∈ contracts, need.Implements t = some true) (c : simple) :
    provideAs need item contracts c =
      some ({ c with static := mapSetAll c.static contracts item }, none) := by
  have h2 := provideAs_append need item contracts [] h c
  simpa [provideAs] using h2

/-- The contract loop stops at the first contract that is not implemented. -/
theorem provideAs_first_unsatisfied (need : Ty) (item : Val) (pre post : List Ty) (t : Ty)
    (hpre : ∀ u ∈ pre, need.Implements u = some true) (ht : need.Implements t = some false)
    (c : simple) :
    provideAs need item (pre ++ t :: post) c =
      some ({ c with static := mapSetAll c.static pre item }, some (errNotImplement need t)) := by
  rw [provideAs_append need item pre (t :: post) hpre c]
  simp [provideAs, ht]

/-- C1: for every registry `c` and value `v`, `Provide(v)` without contracts
returns no error and stores `v` under its own type (the factory map is left as it
was); `ByType(typeOf(v))` on the resulting registry then returns exactly `v`, no
error, no function call and no further change, whatever `c` held before. -/
theorem provide_then_byType (c : simple) (v : Val) :
    ∃ c1, c.Provide v [] = some (c1, none) ∧
      c1.static = mapSet c.static v.ty v ∧ c1.factories = c.factories ∧
      ∀ fuel, simple.ByType (fuel + 1) c1 v.ty = some (c1, [], .ok v) := by
  refine ⟨{ c with static := mapSet c.static v.ty v }, by simp [simple.Provide], rfl, rfl, ?_⟩
  intro fuel
  simp [simple.ByType]

/-- C2: for every registry `c`, value `v` and non-empty list of contracts that the
type of `v` implements, `Provide(v, contracts...)` returns no error; afterwards
`ByType` of each contract returns `v`; the static entry of `typeOf(v)`, every
static entry outside the contracts and the factory map are unchanged, so that
when `c` had no provider for `typeOf(v)` the request for it still fails with the
not-found error. -/
theorem provide_as_registers (c : simple) (v : Val) (contracts : List Ty)
    (hne : contracts ≠ []) (hsat : ∀ t ∈ contracts, v.ty.Implements t = some true) :
    ∃ c1, c.Provide v contracts = some (c1, none) ∧
      (∀ t ∈ contracts, ∀ fuel, simple.ByType (fuel + 1) c1 t = some (c1, [], .ok v)) ∧
      c1.static v.ty = c.static v.ty ∧
      (∀ t, t ∉ contracts → c1.static t = c.static t) ∧
      c1.factories = c.factories ∧
      (c.static v.ty = none → c.factories v.ty = none →
        ∀ fuel, simple.ByType (fuel + 1) c1 v.ty =
          some (c1, [], .error (errNotFound v.ty))) := by
  have hlen : contracts.length ≠ 0 := by
    intro h0
    exact hne (List.length_eq_zero.1 h0)
  have hown : v.ty ∉ contracts := fun hmem =>
    implements_ne_concrete v v.ty (hsat v.ty hmem) rfl
  refine ⟨{ c with static := mapSetAll c.static contracts v }, ?_, ?_, ?_, ?_, rfl, ?_⟩
  · simp [simple.Provide, hlen, provideAs_all v.ty v contracts hsat c]
  · intro t ht fuel
    simp [simple.ByType, mapSetAll, ht]
  · simp [mapSetAll, hown]
  · intro t ht
    simp [mapSetAll, ht]
  · intro hs hf fuel
    simp [simple.ByType, mapSetAll, hown, hs, hf]

/-- Witness for C2: `Pizza{}` provided as `Sliced` on a new registry. -/
theorem provide_as_registers_witness :
    New.Provide (pizzaOf "") [Sliced] = some (slicedPlainRegistry, none) ∧
      simple.ByType 1 slicedPlainRegistry Sliced =
        some (slicedPlainRegistry, [], .ok (pizzaOf "")) ∧
      simple.ByType 1 slicedPlainRegistry Pizza =
        some (slicedPlainRegistry, [],
          .error "You can't always get what you want (divine_test.Pizza)") := by
  obtain ⟨c1, h1, h2, _, _, _, h6⟩ :=
    provide_as_registers New (pizzaOf "") [Sliced] (by decide) (by decide)
  have hx : New.Provide (pizzaOf "") [Sliced] = some (slicedPlainRegistry, none) := rfl
  rw [hx] at h1
  simp only [Option.some.injEq, Prod.mk.injEq, and_true] at h1
  subst h1
  exact ⟨hx, h2 Sliced (by simp) 0, h6 rfl rfl 0⟩

/-- C3 fails as stated: with the contracts `Sliced, Shared, Sliced` the first
unsatisfied contract is the second one, the error names it, and yet the entry of
the third contract (`Sliced` again) has been created, by the first iteration. -/
theorem provide_as_error_later_contract_changed :
    New.Provide (pizzaOf "") [Sliced, Shared, Sliced] =
        some (slicedPlainRegistry,
          some "divine_test.Pizza does not implement divine_test.Shared") ∧
      (pizzaOf "").ty.Implements Sliced = some true ∧
      (pizzaOf "").ty.Implements Shared = some false ∧
      [Sliced, Shared, Sliced].get? 2 = some Sliced ∧
      New.static Sliced = none ∧
      slicedPlainRegistry.static Sliced = some (pizzaOf "") :=
  ⟨rfl, by decide, by decide, rfl, rfl, rfl⟩

/-- C3 (amended): for every registry `c`, value `v` and list of interface types
`contracts`, `Provide(v, contracts...)` returns an error exactly when some
contract is not implemented by the type of `v`; when `t` is the first such
contract, after the contracts `pre` and before `post`, the error text is
"<typeOf(v)> does not implement <t>", the static map afterwards is the previous
one with every contract of `pre` mapped to `v`, the entry of `t` and of every
later contract that does not occur in `pre` is as before, and the factory map is
unchanged. -/
theorem provide_as_error (c : simple) (v : Val) (contracts : List Ty)
    (hi : ∀ t ∈ contracts, t.iface = true) :
    ((∃ c1 e, c.Provide v contracts = some (c1, some e)) ↔
        ∃ t ∈ contracts, v.ty.Implements t = some false) ∧
    ∀ pre t post, contracts = pre ++ t :: post →
      (∀ u ∈ pre, v.ty.Implements u = some true) → v.ty.Implements t = some false →
      ∃ c1, c.Provide v contracts = some (c1, some (errNotImplement v.ty t)) ∧
        c1.static = mapSetAll c.static pre v ∧
        c1.static t = c.static t ∧
        (∀ u ∈ post, u ∉ pre → c1.static u = c.static u) ∧
        c1.factories = c.factories := by
  have key : ∀ pre t post, contracts = pre ++ t :: post →
      (∀ u ∈ pre, v.ty.Implements u = some true) → v.ty.Implements t = some false →
      c.Provide v contracts =
        some ({ c with static := mapSetAll c.static pre v }, some (errNotImplement v.ty t)) := by
    intro pre t post e hpre ht
    subst e
    simp [simple.Provide, provideAs_first_unsatisfied v.ty v pre post t hpre ht c]
  refine ⟨⟨?_, ?_⟩, ?_⟩
  · rintro ⟨c1, e, h⟩
    by_contra hno
    have hall : ∀ t ∈ contracts, v.ty.Implements t = some true := by
      intro t ht
      have hit := hi t ht
      have hnf : ¬ v.ty.Implements t = some false := fun hf => hno ⟨t, ht, hf⟩
      simp only [Ty.Implements, hit, if_true, Option.some.injEq] at hnf ⊢
      simpa using hnf
    by_cases h0 : contracts.length = 0
    · simp [simple.Provide, h0] at h
    · simp [simple.Provide, h0, provideAs_all v.ty v contracts hall c] at h
  · intro h
    obtain ⟨pre, t, post, e, hpre, ht⟩ := first_unsatisfied v.ty contracts hi h
    exact ⟨_, _, key pre t post e hpre ht⟩
  · intro pre t post e hpre ht
    refine ⟨_, key pre t post e hpre ht, rfl, ?_, ?_, rfl⟩
    · have htp : t ∉ pre := by
        intro hmem
        have := hpre t hmem
        rw [ht] at this
        simp at this
      simp [mapSetAll, htp]
    · intro u _ hu
      simp [mapSetAll, hu]

/-- Witness for C3: `Pizza{}` provided as `Sliced, Shared`. -/
theorem provide_as_error_witness :
    New.Provide (pizzaOf "") [Sliced, Shared] =
        some (slicedPlainRegistry,
          some "divine_test.Pizza does not implement divine_test.Shared") ∧
      slicedPlainRegistry.static = mapSetAll New.static [Sliced] (pizzaOf "") ∧
      slicedPlainRegistry.static Shared = New.static Shared := by
  obtain ⟨c1, h1, h2, h3, _⟩ :=
    (provide_as_error New (pizzaOf "") [Sliced, Shared] (by decide)).2
      [Sliced] Shared [] rfl (by decide) (by decide)
  have hx : New.Provide (pizzaOf "") [Sliced, Shared] =
      some (slicedPlainRegistry,
        some "divine_test.Pizza does not implement divine_test.Shared") := rfl
  rw [hx] at h1
  simp only [Option.some.injEq, Prod.mk.injEq] at h1
  obtain ⟨h1, _⟩ := h1
  subst h1
  exact ⟨hx, h2, h3⟩

/-! ## Resolution: inversion, depth and frame -/

theorem resolveParams_mono
    {res res2 : simple → Ty → Option (simple × List Event × Except String Val)}
    (h : ∀ c t r, res c t = some r → res2 c t = some r) (need : Ty) (sig : List Ty) :
    ∀ ps c r, resolveParams res need sig ps c = some r →
      resolveParams res2 need sig ps c = some r := by
  intro ps
  induction ps with
  | nil => intro c r hr; simpa [resolveParams] using hr
  | cons p rest ih =>
    intro c r hr
    by_cases hc : isCircular need sig c.factories = true
    · simpa [resolveParams, hc] using hr
    · simp only [resolveParams, hc] at hr ⊢
      cases hres : res c p with
      | none => simp [hres] at hr
      | some x =>
        obtain ⟨c1, ev1, r1⟩ := x
        rw [hres] at hr
        rw [h _ _ _ hres]
        cases r1 with
        | error e => simpa using hr
        | ok v =>
          simp only at hr ⊢
          cases hrest : resolveParams res need sig rest c1 with
          | none => simp [hrest] at hr
          | some y =>
            rw [hrest] at hr
            rw [ih _ _ hrest]
            exact hr

theorem ByType_succ (n : Nat) : ∀ c t r, simple.ByType n c t = some r →
    simple.ByType (n + 1) c t = some r := by
  induction n with
  | zero => intro c t r h; simp [simple.ByType] at h
  | succ n ih =>
    intro c t r h
    rw [simple.ByType] at h ⊢
    cases hs : c.static t with
    | some v => simpa [hs] using h
    | none =>
      simp only [hs] at h ⊢
      cases hf : c.factories t with
      | none => simpa [hf] using h
      | some f =>
        simp only [hf] at h ⊢
        cases hp : resolveParams (simple.ByType n) t f.ins f.ins c with
        | none => simp [hp] at h
        | some y =>
          rw [hp] at h
          rw [resolveParams_mono ih t f.ins f.ins c y hp]
          exact h

theorem ByType_mono {n m : Nat} (hnm : n ≤ m) {c : simple} {t : Ty}
    {r : simple × List Event × Except String Val} (h : simple.ByType n c t = some r) :
    simple.ByType m c t = some r := by
  induction hnm with
  | refl => exact h
  | step _ ih => exact ByType_succ _ _ _ _ ih



theorem resolveParams_cons_inv
    {res : simple → Ty → Option (simple × List Event × Except String Val)}
    {need : Ty} {sig : List Ty} {p : Ty} {rest : List Ty} {c c2 : simple} {ev : List Event}
    {r : Except String (List Val)}
    (h : resolveParams res need sig (p :: rest) c = some (c2, ev, r)) :
    (isCircular need sig c.factories = true ∧ c2 = c ∧ ev = [] ∧
        r = .error (errCircular need p)) ∨
    (isCircular need sig c.factories = false ∧
        ∃ e, res c p = some (c2, ev, .error e) ∧ r = .error e) ∨
    (isCircular need sig c.factories = false ∧
        ∃ c1 ev1 v ev2 r2, res c p = some (c1, ev1, .ok v) ∧
          resolveParams res need sig rest c1 = some (c2, ev2, r2) ∧
          ev = ev1 ++ ev2 ∧ r = r2.map (fun ps => v :: ps)) := by
  by_cases hc : isCircular need sig c.factories = true
  · left
    simp only [resolveParams, hc, if_true, Option.some.injEq, Prod.mk.injEq] at h
    obtain ⟨h1, h2, h3⟩ := h
    exact ⟨hc, h1.symm, h2.symm, h3.symm⟩
  · right
    have hc2 : isCircular need sig c.factories = false := by simpa using hc
    simp only [resolveParams, hc] at h
    cases hres : res c p with
    | none => simp [hres] at h
    | some x =>
      obtain ⟨c1, ev1, r1⟩ := x
      rw [hres] at h
      cases r1 with
      | error e =>
        left
        simp only [if_false, Option.some.injEq, Prod.mk.injEq] at h
        obtain ⟨rfl, rfl, rfl⟩ := h
        exact ⟨hc2, e, rfl, rfl⟩
      | ok v =>
        right
        simp only [if_false] at h
        cases hrest : resolveParams res need sig rest c1 with
        | none => simp [hrest] at h
        | some y =>
          obtain ⟨c3, ev2, r2⟩ := y
          rw [hrest] at h
          cases r2 with
          | error e =>
            simp only [Option.some.injEq, Prod.mk.injEq] at h
            obtain ⟨rfl, rfl, rfl⟩ := h
            exact ⟨hc2, c1, ev1, v, ev2, _, rfl, hrest, rfl, rfl⟩
          | ok ps =>
            simp only [Option.some.injEq, Prod.mk.injEq] at h
            obtain ⟨rfl, rfl, rfl⟩ := h
            exact ⟨hc2, c1, ev1, v, ev2, _, rfl, hrest, rfl, rfl⟩

theorem ByType_inv {n : Nat} {c c1 : simple} {t : Ty} {ev : List Event}
    {r : Except String Val} (h : simple.ByType (n + 1) c t = some (c1, ev, r)) :
    (∃ v, c.static t = some v ∧ c1 = c ∧ ev = [] ∧ r = .ok v) ∨
    (c.static t = none ∧ c.factories t = none ∧ c1 = c ∧ ev = [] ∧
        r = .error (errNotFound t)) ∨
    (∃ f e, c.static t = none ∧ c.factories t = some f ∧
        resolveParams (simple.ByType n) t f.ins f.ins c = some (c1, ev, .error e) ∧
        r = .error e) ∨
    (∃ f c0 ev0 args, c.static t = none ∧ c.factories t = some f ∧
        resolveParams (simple.ByType n) t f.ins f.ins c = some (c0, ev0, .ok args) ∧
        c1 = { c0 with static := mapSet c0.static t (f.body args) } ∧
        ev = ev0 ++ [Event.factory f.id t args] ∧ r = .ok (f.body args)) := by
  rw [simple.ByType] at h
  cases hs : c.static t with
  | some v =>
    left
    simp only [hs, Option.some.injEq, Prod.mk.injEq] at h
    obtain ⟨h1, h2, h3⟩ := h
    exact ⟨v, rfl, h1.symm, h2.symm, h3.symm⟩
  | none =>
    right
    simp only [hs] at h
    cases hf : c.factories t with
    | none =>
      left
      simp only [hf, Option.some.injEq, Prod.mk.injEq] at h
      obtain ⟨h1, h2, h3⟩ := h
      exact ⟨rfl, rfl, h1.symm, h2.symm, h3.symm⟩
    | some f =>
      right
      simp only [hf] at h
      cases hp : resolveParams (simple.ByType n) t f.ins f.ins c with
      | none => simp [hp] at h
      | some y =>
        obtain ⟨c0, ev0, r0⟩ := y
        rw [hp] at h
        cases r0 with
        | error e =>
          left
          simp only [Option.some.injEq, Prod.mk.injEq] at h
          obtain ⟨rfl, rfl, rfl⟩ := h
          exact ⟨f, e, rfl, rfl, hp, rfl⟩
        | ok args =>
          right
          simp only [Option.some.injEq, Prod.mk.injEq] at h
          obtain ⟨rfl, rfl, rfl⟩ := h
          exact ⟨f, c0, ev0, args, rfl, rfl, hp, rfl, rfl, rfl⟩

theorem resolveParams_nil_inv
    {res : simple → Ty → Option (simple × List Event × Except String Val)}
    {need : Ty} {sig : List Ty} {c c2 : simple} {ev : List Event}
    {r : Except String (List Val)}
    (h : resolveParams res need sig [] c = some (c2, ev, r)) :
    c2 = c ∧ ev = [] ∧ r = .ok [] := by
  simp only [resolveParams, Option.some.injEq, Prod.mk.injEq] at h
  obtain ⟨rfl, rfl, rfl⟩ := h
  exact ⟨rfl, rfl, rfl⟩

/-- A property of transitions that holds of every resolution, is reflexive and
composes, holds of the parameter loop. -/
theorem resolveParams_lift (Q : simple → simple → List Event → Prop)
    (hrefl : ∀ c, Q c c [])
    (htrans : ∀ c c1 c2 e1 e2, Q c c1 e1 → Q c1 c2 e2 → Q c c2 (e1 ++ e2))
    {res : simple → Ty → Option (simple × List Event × Except String Val)}
    (hres : ∀ c t c1 ev r, res c t = some (c1, ev, r) → Q c c1 ev)
    (need : Ty) (sig : List Ty) :
    ∀ ps c c2 ev r, resolveParams res need sig ps c = some (c2, ev, r) → Q c c2 ev := by
  intro ps
  induction ps with
  | nil =>
    intro c c2 ev r h
    obtain ⟨rfl, rfl, _⟩ := resolveParams_nil_inv h
    exact hrefl _
  | cons p rest ih =>
    intro c c2 ev r h
    rcases resolveParams_cons_inv h with ⟨_, rfl, rfl, _⟩ | ⟨_, e, h1, _⟩ |
      ⟨_, c1, ev1, v, ev2, r2, h1, h2, rfl, _⟩
    · exact hrefl _
    · exact hres _ _ _ _ _ h1
    · exact htrans _ _ _ _ _ (hres _ _ _ _ _ h1) (ih _ _ _ _ h2)

theorem frame_refl (c : simple) : Frame c c := ⟨rfl, fun _ _ h => h⟩

theorem frame_trans {c c1 c2 : simple} (h1 : Frame c c1) (h2 : Frame c1 c2) : Frame c c2 :=
  ⟨h2.1.trans h1.1, fun k v h => h2.2 k v (h1.2 k v h)⟩

/-- Every resolution leaves the factory map alone and keeps every static entry. -/
theorem ByType_frame (n : Nat) : ∀ c t c1 ev r,
    simple.ByType n c t = some (c1, ev, r) → Frame c c1 := by
  induction n with
  | zero => intro c t c1 ev r h; simp [simple.ByType] at h
  | succ n ih =>
    intro c t c1 ev r h
    have hloop : ∀ need sig ps c c2 ev r,
        resolveParams (simple.ByType n) need sig ps c = some (c2, ev, r) → Frame c c2 :=
      fun need sig => resolveParams_lift (fun a b _ => Frame a b) frame_refl
        (fun _ _ _ _ _ h1 h2 => frame_trans h1 h2) ih need sig
    rcases ByType_inv h with ⟨v, _, rfl, _, _⟩ | ⟨_, _, rfl, _, _⟩ | ⟨f, e, _, _, hp, _⟩ |
      ⟨f, c0, ev0, args, hs, _, hp, rfl, _, _⟩
    · exact frame_refl _
    · exact frame_refl _
    · exact hloop _ _ _ _ _ _ _ hp
    · have h0 := hloop _ _ _ _ _ _ _ hp
      refine ⟨h0.1, ?_⟩
      intro k v hk
      have hne : k ≠ t := by
        intro e
        rw [e, hs] at hk
        simp at hk
      simpa [mapSet, hne] using h0.2 k v hk

/-! ## Resolution through a factory -/

theorem resolvesAll_frame {n : Nat} {c c1 : simple} {ps : List Ty} {ev : List Event}
    {vs : List Val} (h : ResolvesAll n c ps c1 ev vs) : Frame c c1 := by
  induction h with
  | nil c => exact frame_refl c
  | cons h1 _ ih => exact frame_trans (ByType_frame _ _ _ _ _ _ h1) ih

/-- When the guard does not trip, the parameter loop returns what the successive
resolutions return. -/
theorem resolveParams_of_resolvesAll {n : Nat} {c c1 : simple} {ps : List Ty}
    {ev : List Event} {vs : List Val} (need : Ty) (sig : List Ty)
    (h : ResolvesAll n c ps c1 ev vs) (hg : isCircular need sig c.factories = false) :
    resolveParams (simple.ByType n) need sig ps c = some (c1, ev, .ok vs) := by
  induction h with
  | nil c => simp [resolveParams]
  | cons h1 _ ih =>
    have hfr := ByType_frame _ _ _ _ _ _ h1
    have hg1 := hg
    rw [← hfr.1] at hg1
    simp [resolveParams, hg, h1, ih hg1]

/-- C5: in a registry where `R` has no static value, its factory is `f`, the cycle
guard does not trip and the parameters of `f` resolve in order (each resolution
starting from the registry left by the previous one) to the values `vs`,
`ByType(R)` returns `f(vs)`, having made the calls of those resolutions followed
by the call of `f`, and stores the result under `R`. -/
theorem byType_through_factory (n : Nat) (c : simple) (R : Ty) (f : Factory)
    (hs : c.static R = none) (hf : c.factories R = some f)
    (hg : isCircular R f.ins c.factories = false)
    (c1 : simple) (ev : List Event) (vs : List Val)
    (hall : ResolvesAll n c f.ins c1 ev vs) :
    ∀ m, n + 1 ≤ m → simple.ByType m c R =
      some ({ c1 with static := mapSet c1.static R (f.body vs) },
        ev ++ [Event.factory f.id R vs], .ok (f.body vs)) := by
  intro m hm
  apply ByType_mono hm
  have hp := resolveParams_of_resolvesAll R f.ins hall hg
  simp [simple.ByType, hs, hf, hp]

/-- Witness for C5: with `Topping("pepperoni")` provided and `pizzaCreator`
registered lazily, `ByType(Pizza)` yields `Pizza{Toppings: "pepperoni"}`. -/
theorem byType_through_factory_witness :
    simple.ByType 1 pepperoniRegistry Topping =
        some (pepperoniRegistry, [], .ok (toppingOf "pepperoni")) ∧
      simple.ByType 2 pepperoniRegistry Pizza =
        some ({ pepperoniRegistry with
            static := mapSet pepperoniRegistry.static Pizza (pizzaOf "pepperoni") },
          [Event.factory 11 Pizza [toppingOf "pepperoni"]], .ok (pizzaOf "pepperoni")) :=
  ⟨rfl, byType_through_factory 1 pepperoniRegistry Pizza pizzaCreator rfl rfl rfl
    pepperoniRegistry [] [toppingOf "pepperoni"]
    (show ResolvesAll 1 pepperoniRegistry [Topping] pepperoniRegistry ([] ++ []) _ from
      ResolvesAll.cons rfl (ResolvesAll.nil _)) 2 (by decide)⟩

/-- C6: in a registry holding a factory `f(p: P) -> R` where `R` has no static
value and `P` has neither a static value nor a factory, `ByType(R)` fails with
the not-found error naming `P`, no function is called and the registry is
unchanged (no static entry for `R`); `Inject` of a function taking `R` returns
the `InjectError` with text "could not fulfill request for R: You can't always
get what you want (P)". -/
theorem byType_unknown_parameter (c : simple) (R P : Ty) (f : Factory) (d : Dependent)
    (hs : c.static R = none) (hf : c.factories R = some f) (hins : f.ins = [P])
    (hPs : c.static P = none) (hPf : c.factories P = none) (hd : d.ins = [R])
    (fuel : Nat) :
    simple.ByType (fuel + 2) c R = some (c, [], .error (errNotFound P)) ∧
    errNotFound P = "You can't always get what you want (" ++ P.name ++ ")" ∧
    (∃ ie, Inject (fuel + 2) (.simple c) d = some (.simple c, [], some ie) ∧
      ie.Requested = R ∧ ie.Err = errNotFound P ∧
      ie.Error = "could not fulfill request for " ++ R.name ++
        ": You can't always get what you want (" ++ P.name ++ ")") := by
  have h : simple.ByType (fuel + 2) c R = some (c, [], .error (errNotFound P)) := by
    simp [simple.ByType, resolveParams, isCircular, hs, hf, hins, hPs, hPf]
  refine ⟨h, rfl, ⟨R, errNotFound P⟩, ?_, rfl, rfl, ?_⟩
  · simp [Inject, injectParams, Container.ByType, hd, h]
  · have hlit : ": " ++ "You can't always get what you want (" =
        ": You can't always get what you want (" := by decide
    simp only [InjectError.Error, errNotFound]
    rw [← hlit]
    simp only [String.append_assoc]

/-- Witness for C6: the test "when the factory requires an unknown dependency". -/
theorem byType_unknown_parameter_witness :
    simple.ByType 2 (New.ProvideLazily pizzaCreator) Pizza =
        some (New.ProvideLazily pizzaCreator, [],
          .error "You can't always get what you want (divine_test.Topping)") ∧
      Inject 2 (.simple (New.ProvideLazily pizzaCreator)) pizzaEater =
        some (.simple (New.ProvideLazily pizzaCreator), [],
          some ⟨Pizza, "You can't always get what you want (divine_test.Topping)"⟩) ∧
      InjectError.Error ⟨Pizza, "You can't always get what you want (divine_test.Topping)"⟩ =
        "could not fulfill request for divine_test.Pizza: You can't always get what you want (divine_test.Topping)" := by
  obtain ⟨h1, _, ie, h3, h4, h5, h6⟩ :=
    byType_unknown_parameter (New.ProvideLazily pizzaCreator) Pizza Topping pizzaCreator
      pizzaEater rfl rfl rfl rfl rfl rfl 0
  obtain ⟨req, err⟩ := ie
  simp only at h4 h5
  subst h4 h5
  exact ⟨h1, h3, h6⟩

/-- C7: in a registry holding a self-referential factory `f(p: R) -> R` where `R`
has no static value, `ByType(R)` returns at recursion depth one, for every depth
bound, with the circular-dependency error naming `R` as requester and as
dependency; no function is called and the registry is unchanged. -/
theorem byType_self_reference (c : simple) (R : Ty) (f : Factory)
    (hs : c.static R = none) (hf : c.factories R = some f) (hins : f.ins = [R])
    (fuel : Nat) :
    simple.ByType (fuel + 1) c R = some (c, [], .error (errCircular R R)) ∧
    errCircular R R = "Circular dependency for " ++ R.name ++ ": it requires " ++ R.name ++
      " which in turn requires " ++ R.name := by
  refine ⟨?_, rfl⟩
  simp [simple.ByType, resolveParams, isCircular, hs, hf, hins]

/-- Witness for C7: the test "requesting a dependency with a circular
dependency". -/
theorem byType_self_reference_witness :
    simple.ByType 1 (New.ProvideLazily circularPizzaCreator) Pizza =
      some (New.ProvideLazily circularPizzaCreator, [],
        .error "Circular dependency for divine_test.Pizza: it requires divine_test.Pizza which in turn requires divine_test.Pizza") :=
  (byType_self_reference (New.ProvideLazily circularPizzaCreator) Pizza circularPizzaCreator
    rfl rfl rfl 0).1

/-! ## Containers and injection -/

theorem noDependent_append {e1 e2 : List Event} (h1 : NoDependent e1) (h2 : NoDependent e2) :
    NoDependent (e1 ++ e2) := by
  intro e he
  rcases List.mem_append.1 he with h | h
  · exact h1 e h
  · exact h2 e h

theorem ByType_noDependent (n : Nat) : ∀ c t c1 ev r,
    simple.ByType n c t = some (c1, ev, r) → NoDependent ev := by
  induction n with
  | zero => intro c t c1 ev r h; simp [simple.ByType] at h
  | succ n ih =>
    intro c t c1 ev r h
    have hloop : ∀ need sig ps c c2 ev r,
        resolveParams (simple.ByType n) need sig ps c = some (c2, ev, r) → NoDependent ev :=
      fun need sig => resolveParams_lift (fun _ _ ev => NoDependent ev)
        (fun _ e he => by simp at he)
        (fun _ _ _ _ _ h1 h2 => noDependent_append h1 h2) ih need sig
    rcases ByType_inv h with ⟨v, _, _, rfl, _⟩ | ⟨_, _, _, rfl, _⟩ | ⟨f, e, _, _, hp, _⟩ |
      ⟨f, c0, ev0, args, hs, _, hp, _, rfl, _⟩
    · intro e he; simp at he
    · intro e he; simp at he
    · exact hloop _ _ _ _ _ _ _ hp
    · refine noDependent_append (hloop _ _ _ _ _ _ _ hp) ?_
      intro e he
      simp only [List.mem_singleton] at he
      subst he
      rfl

theorem containerByType_simple_inv {n : Nat} {c : simple} {t : Ty} {C1 : Container}
    {ev : List Event} {r : Except String Val}
    (h : Container.ByType n (.simple c) t = some (C1, ev, r)) :
    ∃ c1, simple.ByType n c t = some (c1, ev, r) ∧ C1 = .simple c1 := by
  simp only [Container.ByType] at h
  cases hb : simple.ByType n c t with
  | none => simp [hb] at h
  | some x =>
    obtain ⟨c1, ev1, r1⟩ := x
    simp only [hb, Option.some.injEq, Prod.mk.injEq] at h
    obtain ⟨rfl, rfl, rfl⟩ := h
    exact ⟨c1, rfl, rfl⟩

theorem containerByType_wrapped_inv {n : Nat} {loc : simple} {P : Container} {t : Ty}
    {C1 : Container} {ev : List Event} {r : Except String Val}
    (h : Container.ByType n (.wrapped loc P) t = some (C1, ev, r)) :
    (∃ loc1 v, simple.ByType n loc t = some (loc1, ev, .ok v) ∧ C1 = .wrapped loc1 P ∧
        r = .ok v) ∨
    (∃ loc1 ev1 e P1 ev2, simple.ByType n loc t = some (loc1, ev1, .error e) ∧
        Container.ByType n P t = some (P1, ev2, r) ∧ C1 = .wrapped loc1 P1 ∧
        ev = ev1 ++ ev2) := by
  simp only [Container.ByType] at h
  cases hb : simple.ByType n loc t with
  | none => simp [hb] at h
  | some x =>
    obtain ⟨loc1, ev1, r1⟩ := x
    rw [hb] at h
    cases r1 with
    | ok v =>
      left
      simp only [Option.some.injEq, Prod.mk.injEq] at h
      obtain ⟨rfl, rfl, rfl⟩ := h
      exact ⟨loc1, v, rfl, rfl, rfl⟩
    | error e =>
      right
      simp only at h
      cases hp : Container.ByType n P t with
      | none => simp [hp] at h
      | some y =>
        obtain ⟨P1, ev2, r2⟩ := y
        simp only [hp, Option.some.injEq, Prod.mk.injEq] at h
        obtain ⟨rfl, rfl, rfl⟩ := h
        exact ⟨loc1, ev1, e, P1, ev2, rfl, rfl, rfl, rfl⟩

theorem containerByType_noDependent (n : Nat) : ∀ (C : Container) t C1 ev r,
    Container.ByType n C t = some (C1, ev, r) → NoDependent ev := by
  intro C
  induction C with
  | simple c =>
    intro t C1 ev r h
    obtain ⟨c1, h1, _⟩ := containerByType_simple_inv h
    exact ByType_noDependent _ _ _ _ _ _ h1
  | wrapped loc P ih =>
    intro t C1 ev r h
    rcases containerByType_wrapped_inv h with ⟨loc1, v, h1, _, _⟩ |
      ⟨loc1, ev1, e, P1, ev2, h1, h2, _, rfl⟩
    · exact ByType_noDependent _ _ _ _ _ _ h1
    · exact noDependent_append (ByType_noDependent _ _ _ _ _ _ h1) (ih _ _ _ _ h2)

theorem containerResolvesAll_noDependent {n : Nat} {C C1 : Container} {ps : List Ty}
    {ev : List Event} {vs : List Val} (h : ContainerResolvesAll n C ps C1 ev vs) :
    NoDependent ev := by
  induction h with
  | nil c => intro e he; simp at he
  | cons h1 _ ih => exact noDependent_append (containerByType_noDependent _ _ _ _ _ _ h1) ih

theorem injectParams_of_resolvesAll {n : Nat} {C C1 : Container} {ps : List Ty}
    {ev : List Event} {vs : List Val} (h : ContainerResolvesAll n C ps C1 ev vs) :
    injectParams n ps C = some (C1, ev, .ok vs) := by
  induction h with
  | nil c => simp [injectParams]
  | cons h1 _ ih => simp [injectParams, h1, ih]

theorem injectParams_first_failure {n : Nat} {C C1 C2 : Container} {pre : List Ty}
    {ev ev2 : List Event} {vs : List Val} (p : Ty) (post : List Ty) {err : String}
    (h : ContainerResolvesAll n C pre C1 ev vs)
    (hfail : Container.ByType n C1 p = some (C2, ev2, .error err)) :
    injectParams n (pre ++ p :: post) C =
      some (C2, ev ++ ev2, .error { Requested := p, Err := err }) := by
  induction h with
  | nil c => simp [injectParams, hfail]
  | cons h1 _ ih => simp [injectParams, h1, ih hfail]

theorem resolvesAll_of_injectParams {n : Nat} : ∀ (ps : List Ty) (C C1 : Container)
    (ev : List Event) (vs : List Val),
    injectParams n ps C = some (C1, ev, .ok vs) → ContainerResolvesAll n C ps C1 ev vs := by
  intro ps
  induction ps with
  | nil =>
    intro C C1 ev vs h
    simp only [injectParams, Option.some.injEq, Prod.mk.injEq, Except.ok.injEq] at h
    obtain ⟨rfl, rfl, rfl⟩ := h
    exact ContainerResolvesAll.nil _
  | cons p rest ih =>
    intro C C1 ev vs h
    simp only [injectParams] at h
    cases hb : Container.ByType n C p with
    | none => simp [hb] at h
    | some x =>
      obtain ⟨c1, ev1, r1⟩ := x
      rw [hb] at h
      cases r1 with
      | error e => simp at h
      | ok v =>
        simp only at h
        cases hr : injectParams n rest c1 with
        | none => simp [hr] at h
        | some y =>
          obtain ⟨c2, ev2, r2⟩ := y
          rw [hr] at h
          cases r2 with
          | error e => simp at h
          | ok ps =>
            simp only [Option.some.injEq, Prod.mk.injEq, Except.ok.injEq] at h
            obtain ⟨rfl, rfl, rfl⟩ := h
            exact ContainerResolvesAll.cons hb (ih _ _ _ _ hr)

/-- C8: when the parameters `pre` of the dependent resolve in order and the next
parameter `p` fails with the error `err`, `Inject` returns the `InjectError`
whose `Requested` is `p` and whose `Err` is `err`, with text "could not fulfill
request for <p>: <err>"; the container and the calls made are those of the
resolutions up to and including the failed one (the later parameters `post` are
not resolved) and no dependent is called. -/
theorem inject_first_failure (n : Nat) (C : Container) (d : Dependent)
    (pre : List Ty) (p : Ty) (post : List Ty) (hd : d.ins = pre ++ p :: post)
    (C1 : Container) (ev : List Event) (vs : List Val)
    (hpre : ContainerResolvesAll n C pre C1 ev vs)
    (C2 : Container) (ev2 : List Event) (err : String)
    (hfail : Container.ByType n C1 p = some (C2, ev2, .error err)) :
    ∃ ie, Inject n C d = some (C2, ev ++ ev2, some ie) ∧
      ie.Requested = p ∧ ie.Err = err ∧
      ie.Error = "could not fulfill request for " ++ p.name ++ ": " ++ err ∧
      ∀ e ∈ ev ++ ev2, e.isDependent = false := by
  refine ⟨⟨p, err⟩, ?_, rfl, rfl, rfl, ?_⟩
  · simp [Inject, hd, injectParams_first_failure p post hpre hfail]
  · exact noDependent_append (containerResolvesAll_noDependent hpre)
      (containerByType_noDependent _ _ _ _ _ _ hfail)

/-- Witness for C8: the test "requesting a dependency / which is unknown". -/
theorem inject_first_failure_witness :
    Inject 1 (.simple New) pizzaEater =
        some (.simple New, [],
          some ⟨Pizza, "You can't always get what you want (divine_test.Pizza)"⟩) ∧
      InjectError.Error ⟨Pizza, "You can't always get what you want (divine_test.Pizza)"⟩ =
        "could not fulfill request for divine_test.Pizza: You can't always get what you want (divine_test.Pizza)" := by
  obtain ⟨ie, h1, h2, h3, h4, _⟩ :=
    inject_first_failure 1 (.simple New) pizzaEater [] Pizza [] rfl (.simple New) [] []
      (ContainerResolvesAll.nil _) (.simple New) []
      "You can't always get what you want (divine_test.Pizza)" rfl
  obtain ⟨req, err⟩ := ie
  simp only at h2 h3
  subst h2 h3
  exact ⟨h1, h4⟩

/-- C9: when the parameters of the dependent `d` resolve in order to the values
`vs`, `Inject` returns no error and has called `d` exactly once, after all the
resolutions, with the arguments `vs`; and `Inject` returns no error only in that
case. -/
theorem inject_success (n : Nat) (C : Container) (d : Dependent) :
    (∀ C1 ev vs, ContainerResolvesAll n C d.ins C1 ev vs →
      Inject n C d = some (C1, ev ++ [Event.dependent d.id vs], none) ∧
      (ev ++ [Event.dependent d.id vs]).filter Event.isDependent =
        [Event.dependent d.id vs]) ∧
    (∀ C1 ev1, Inject n C d = some (C1, ev1, none) →
      ∃ ev vs, ContainerResolvesAll n C d.ins C1 ev vs ∧
        ev1 = ev ++ [Event.dependent d.id vs]) := by
  constructor
  · intro C1 ev vs h
    refine ⟨by simp [Inject, injectParams_of_resolvesAll h], ?_⟩
    have hnd := containerResolvesAll_noDependent h
    have hf : ev.filter Event.isDependent = [] := by
      rw [List.filter_eq_nil_iff]
      intro e he
      simp [hnd e he]
    simp [List.filter_append, hf, Event.isDependent]
  · intro C1 ev1 h
    simp only [Inject] at h
    cases hp : injectParams n d.ins C with
    | none => simp [hp] at h
    | some x =>
      obtain ⟨c1, ev, r⟩ := x
      rw [hp] at h
      cases r with
      | error ie => simp at h
      | ok vs =>
        simp only [Option.some.injEq, Prod.mk.injEq, and_true] at h
        obtain ⟨rfl, rfl⟩ := h
        exact ⟨ev, vs, resolvesAll_of_injectParams _ _ _ _ _ hp, rfl⟩

/-- Witness for C9: the test "requesting a dependency / by default". -/
theorem inject_success_witness :
    Inject 1 (.simple pizzaRegistry) pizzaEater =
      some (.simple pizzaRegistry, [Event.dependent 20 [pizzaOf ""]], none) :=
  ((inject_success 1 (.simple pizzaRegistry) pizzaEater).1 (.simple pizzaRegistry) []
    [pizzaOf ""]
    (show ContainerResolvesAll 1 (.simple pizzaRegistry) [Pizza] (.simple pizzaRegistry)
        ([] ++ []) _ from ContainerResolvesAll.cons rfl (ContainerResolvesAll.nil _))).1

/-! ## Wrapping containers -/

theorem containerByType_wrapped_ok {n : Nat} {loc loc1 : simple} (P : Container) {D : Ty}
    {ev : List Event} {v : Val} (h : simple.ByType n loc D = some (loc1, ev, .ok v)) :
    Container.ByType n (.wrapped loc P) D = some (.wrapped loc1 P, ev, .ok v) := by
  simp [Container.ByType, h]

theorem containerByType_wrapped_error {n : Nat} {loc loc1 : simple} (P : Container) {D : Ty}
    {ev : List Event} {e : String} (h : simple.ByType n loc D = some (loc1, ev, .error e)) :
    Container.ByType n (.wrapped loc P) D =
      (Container.ByType n P D).map (fun x => (.wrapped loc1 x.1, ev ++ x.2.1, x.2.2)) := by
  simp only [Container.ByType, h]
  cases Container.ByType n P D with
  | none => rfl
  | some y => rfl

theorem chain_cons (l : simple) (ls : List simple) (s0 : simple) :
    chain (l :: ls) s0 = .wrapped l (chain ls s0) := rfl

theorem chain_all_fail {n : Nat} {D : Ty} {ls ls1 : List simple} {evs : List Event}
    (h : FailAll n D ls ls1 evs) (post : Container) (P1 : Container) (ev : List Event)
    (r : Except String Val) (hp : Container.ByType n post D = some (P1, ev, r)) :
    Container.ByType n (ls.foldr Container.wrapped post) D =
      some (ls1.foldr Container.wrapped P1, evs ++ ev, r) := by
  induction h with
  | nil => simpa using hp
  | cons h1 _ ih =>
    simp only [List.foldr_cons]
    rw [containerByType_wrapped_error _ h1, ih]
    simp [List.append_assoc]

theorem chain_error_inv {n : Nat} {D : Ty} : ∀ (ls : List simple) (s0 : simple)
    (C1 : Container) (ev : List Event) (e : String),
    Container.ByType n (chain ls s0) D = some (C1, ev, .error e) →
    ∃ ls1 evs s1 ev0, FailAll n D ls ls1 evs ∧
      simple.ByType n s0 D = some (s1, ev0, .error e) ∧
      C1 = chain ls1 s1 ∧ ev = evs ++ ev0 := by
  intro ls
  induction ls with
  | nil =>
    intro s0 C1 ev e h
    obtain ⟨c1, h1, rfl⟩ := containerByType_simple_inv h
    exact ⟨[], [], c1, ev, FailAll.nil, h1, rfl, rfl⟩
  | cons l ls ih =>
    intro s0 C1 ev e h
    rw [chain_cons] at h
    rcases containerByType_wrapped_inv h with ⟨loc1, v, _, _, hr⟩ |
      ⟨loc1, ev1, e1, P1, ev2, h1, h2, rfl, rfl⟩
    · cases hr
    · obtain ⟨ls1, evs, s1, ev0, hf, hs, rfl, rfl⟩ := ih s0 P1 ev2 e h2
      exact ⟨loc1 :: ls1, ev1 ++ evs, s1, ev0, FailAll.cons h1 hf, hs, rfl,
        by simp [List.append_assoc]⟩

theorem exists_chain (C : Container) : ∃ ls s0, C = chain ls s0 := by
  induction C with
  | simple c => exact ⟨[], c, rfl⟩
  | wrapped loc P ih =>
    obtain ⟨ls, s0, rfl⟩ := ih
    exact ⟨loc :: ls, s0, rfl⟩

/-- C10: for a wrapper with local registry `loc` and parent `P`, `ByType(D)`
returns the local value when the local resolution succeeds, leaving `P` as it
was and making no call in it, and otherwise returns exactly what `P.ByType(D)`
returns, value or error.  Every container is a chain of local registries around
a root registry; on a chain, resolution returns the value of the first registry
(from the outermost wrapper towards the root) whose resolution of `D` succeeds,
the registries behind it being left alone, and it fails exactly when every
registry of the chain fails on `D`, the error then being the one of the root. -/
theorem wrapped_byType_chain (n : Nat) (D : Ty) :
    (∀ C : Container, ∃ ls s0, C = chain ls s0) ∧
    (∀ (loc loc1 : simple) (P : Container) (ev : List Event) (v : Val),
      simple.ByType n loc D = some (loc1, ev, .ok v) →
      Container.ByType n (.wrapped loc P) D = some (.wrapped loc1 P, ev, .ok v)) ∧
    (∀ (loc loc1 : simple) (P : Container) (ev : List Event) (e : String),
      simple.ByType n loc D = some (loc1, ev, .error e) →
      Container.ByType n (.wrapped loc P) D =
        (Container.ByType n P D).map (fun x => (.wrapped loc1 x.1, ev ++ x.2.1, x.2.2))) ∧
    (∀ (pre pre1 post : List simple) (l l1 s0 : simple) (evs ev : List Event) (v : Val),
      FailAll n D pre pre1 evs → simple.ByType n l D = some (l1, ev, .ok v) →
      Container.ByType n (chain (pre ++ l :: post) s0) D =
        some (chain (pre1 ++ l1 :: post) s0, evs ++ ev, .ok v)) ∧
    (∀ (ls ls1 : List simple) (s0 s1 : simple) (evs ev : List Event) (r : Except String Val),
      FailAll n D ls ls1 evs → simple.ByType n s0 D = some (s1, ev, r) →
      Container.ByType n (chain ls s0) D = some (chain ls1 s1, evs ++ ev, r)) ∧
    (∀ (ls : List simple) (s0 : simple) (C1 : Container) (ev : List Event) (e : String),
      Container.ByType n (chain ls s0) D = some (C1, ev, .error e) →
      ∃ ls1 evs s1 ev0, FailAll n D ls ls1 evs ∧
        simple.ByType n s0 D = some (s1, ev0, .error e) ∧
        C1 = chain ls1 s1 ∧ ev = evs ++ ev0) := by
  refine ⟨exists_chain, fun _ _ P _ _ h => containerByType_wrapped_ok P h,
    fun _ _ P _ _ h => containerByType_wrapped_error P h, ?_, ?_, chain_error_inv⟩
  · intro pre pre1 post l l1 s0 evs ev v hf hl
    have h1 : Container.ByType n (.wrapped l (chain post s0)) D =
        some (.wrapped l1 (chain post s0), ev, .ok v) := containerByType_wrapped_ok _ hl
    have := chain_all_fail hf _ _ _ _ h1
    simpa [chain, List.foldr_append] using this
  · intro ls ls1 s0 s1 evs ev r hf hs
    have h1 : Container.ByType n (.simple s0) D = some (.simple s1, ev, r) := by
      simp [Container.ByType, hs]
    exact chain_all_fail hf _ _ _ _ h1

/-- Witness for C10: the test "when wrapping another container". -/
theorem wrapped_byType_chain_witness :
    Container.ByType 1 (.wrapped pepperoniPizzaRegistry (.simple slicedRegistry)) Pizza =
        some (.wrapped pepperoniPizzaRegistry (.simple slicedRegistry), [],
          .ok (pizzaOf "pepperoni")) ∧
      Container.ByType 1 (chain [pepperoniPizzaRegistry] slicedRegistry) Sliced =
        some (chain [pepperoniPizzaRegistry] slicedRegistry, [], .ok (pizzaOf "mushroom")) :=
  ⟨(wrapped_byType_chain 1 Pizza).2.1 pepperoniPizzaRegistry pepperoniPizzaRegistry
      (.simple slicedRegistry) [] (pizzaOf "pepperoni") rfl,
    (wrapped_byType_chain 1 Sliced).2.2.2.2.1 [pepperoniPizzaRegistry] [pepperoniPizzaRegistry]
      slicedRegistry slicedRegistry [] [] (.ok (pizzaOf "mushroom"))
      (show FailAll 1 Sliced [pepperoniPizzaRegistry] [pepperoniPizzaRegistry] ([] ++ []) from
        FailAll.cons (e := errNotFound Sliced) rfl FailAll.nil) rfl⟩

/-! ## Memoization: a factory is called at most once -/

theorem pending_loop (n : Nat)
    (ih : ∀ stack c D c1 ev r, Pending stack c D →
      simple.ByType n c D = some (c1, ev, r) →
      (∀ S ∈ stack, c1.static S = none) ∧ (D ∈ stack → ∃ e, r = .error e))
    (stack : List Ty) (need : Ty) (sig : List Ty) :
    ∀ ps c c1 ev r, Closed stack c.factories ps → (∀ S ∈ stack, c.static S = none) →
      resolveParams (simple.ByType n) need sig ps c = some (c1, ev, r) →
      (∀ S ∈ stack, c1.static S = none) ∧ ((∃ p ∈ ps, p ∈ stack) → ∃ e, r = .error e) := by
  intro ps
  induction ps with
  | nil =>
    intro c c1 ev r _ hst h
    obtain ⟨rfl, _, _⟩ := resolveParams_nil_inv h
    exact ⟨hst, fun ⟨p, hp, _⟩ => by simp at hp⟩
  | cons p rest ihp =>
    intro c c1 ev r hcl hst h
    have hpend : Pending stack c p := by
      intro S hS
      obtain ⟨f, hf, hq⟩ := hcl S hS
      exact ⟨hst S hS, f, hf, hq p (by simp)⟩
    rcases resolveParams_cons_inv h with ⟨_, rfl, _, hr⟩ | ⟨_, e, h1, hr⟩ |
      ⟨_, c0, ev1, v, ev2, r2, h1, h2, _, hr⟩
    · exact ⟨hst, fun _ => ⟨_, hr⟩⟩
    · exact ⟨(ih stack c p c1 ev _ hpend h1).1, fun _ => ⟨_, hr⟩⟩
    · obtain ⟨hst0, hp0⟩ := ih stack c p c0 ev1 _ hpend h1
      have hfr := ByType_frame _ _ _ _ _ _ h1
      have hcl0 : Closed stack c0.factories rest := by
        intro S hS
        obtain ⟨f, hf, hq⟩ := hcl S hS
        exact ⟨f, by rw [hfr.1]; exact hf, fun q hq2 => hq q (by simp [hq2])⟩
      obtain ⟨hst1, hrest⟩ := ihp c0 c1 ev2 r2 hcl0 hst0 h2
      refine ⟨hst1, ?_⟩
      rintro ⟨q, hq, hqs⟩
      rcases List.mem_cons.1 hq with e | e
      · subst e
        obtain ⟨e2, he2⟩ := hp0 hqs
        cases he2
      · obtain ⟨e2, he2⟩ := hrest ⟨q, e, hqs⟩
        subst he2
        exact ⟨e2, hr⟩

/-- A resolution started while the descriptors of `stack` are being resolved sets
none of them, and fails when asked for one of them. -/
theorem pending_invariant (n : Nat) : ∀ stack c D c1 ev r, Pending stack c D →
    simple.ByType n c D = some (c1, ev, r) →
    (∀ S ∈ stack, c1.static S = none) ∧ (D ∈ stack → ∃ e, r = .error e) := by
  induction n with
  | zero => intro stack c D c1 ev r _ h; simp [simple.ByType] at h
  | succ n ih =>
    intro stack c D c1 ev r hpend h
    have hst : ∀ S ∈ stack, c.static S = none := fun S hS => (hpend S hS).1
    have hclosed : ∀ f, c.factories D = some f → Closed (D :: stack) c.factories f.ins := by
      intro f hf S hS
      rcases List.mem_cons.1 hS with e | e
      · subst e
        exact ⟨f, hf, fun p hp => ⟨p, hp, Or.inr rfl⟩⟩
      · obtain ⟨g, hg, Q, hQ, hQs⟩ := (hpend S e).2
        refine ⟨g, hg, fun p _ => ⟨Q, hQ, Or.inl ?_⟩⟩
        rcases hQs with h1 | h1
        · exact List.mem_cons_of_mem _ h1
        · simp [h1]
    rcases ByType_inv h with ⟨v, hs, rfl, _, _⟩ | ⟨_, _, rfl, _, hr⟩ | ⟨f, e, hs, hf, hp, hr⟩ |
      ⟨f, c0, ev0, args, hs, hf, hp, rfl, _, hr⟩
    · refine ⟨hst, fun hD => ?_⟩
      rw [hst D hD] at hs
      cases hs
    · exact ⟨hst, fun _ => ⟨_, hr⟩⟩
    · have hst2 : ∀ S ∈ D :: stack, c.static S = none := by
        intro S hS
        rcases List.mem_cons.1 hS with e2 | e2
        · exact e2 ▸ hs
        · exact hst S e2
      have := pending_loop n ih (D :: stack) D f.ins f.ins c c1 ev _ (hclosed f hf) hst2 hp
      exact ⟨fun S hS => this.1 S (List.mem_cons_of_mem _ hS), fun _ => ⟨_, hr⟩⟩
    · have hst2 : ∀ S ∈ D :: stack, c.static S = none := by
        intro S hS
        rcases List.mem_cons.1 hS with e2 | e2
        · exact e2 ▸ hs
        · exact hst S e2
      obtain ⟨hst0, hnone⟩ :=
        pending_loop n ih (D :: stack) D f.ins f.ins c c0 ev0 _ (hclosed f hf) hst2 hp
      have hDnot : D ∉ stack := by
        intro hD
        obtain ⟨g, hg, Q, hQ, hQs⟩ := (hpend D hD).2
        rw [hf] at hg
        cases hg
        have hQ2 : Q ∈ D :: stack := by
          rcases hQs with h1 | h1
          · exact List.mem_cons_of_mem _ h1
          · simp [h1]
        obtain ⟨e2, he2⟩ := hnone ⟨Q, hQ, hQ2⟩
        cases he2
      refine ⟨?_, fun hD => absurd hD hDnot⟩
      intro S hS
      have hne : S ≠ D := fun e => hDnot (e ▸ hS)
      simpa [mapSet, hne] using hst0 S (List.mem_cons_of_mem _ hS)

/-- While the parameters of the factory of `need` are resolved, `need` gets no
static value. -/
theorem loop_keeps_need_unset {n : Nat} {c c1 : simple} {need : Ty} {f : Factory}
    {ev : List Event} {r : Except String (List Val)}
    (hs : c.static need = none) (hf : c.factories need = some f)
    (hp : resolveParams (simple.ByType n) need f.ins f.ins c = some (c1, ev, r)) :
    c1.static need = none := by
  have hcl : Closed [need] c.factories f.ins := by
    intro S hS
    simp only [List.mem_singleton] at hS
    subst hS
    exact ⟨f, hf, fun p hp => ⟨p, hp, Or.inr rfl⟩⟩
  have hst : ∀ S ∈ [need], c.static S = none := by
    intro S hS
    simp only [List.mem_singleton] at hS
    exact hS ▸ hs
  exact (pending_loop n (pending_invariant n) [need] need f.ins f.ins c c1 ev r hcl hst hp).1
    need (by simp)

theorem calls_append (R : Ty) (e1 e2 : List Event) :
    calls R (e1 ++ e2) = calls R e1 + calls R e2 := by
  simp [calls, List.countP_append]

theorem trace_refl (c : simple) : Trace c c [] := by
  refine ⟨frame_refl c, ?_, ?_⟩
  · intro R
    cases h : c.static R <;> simp [calls, became, h]
  · intro R v h1 h2
    rw [h1] at h2
    cases h2

theorem trace_trans {c c1 c2 : simple} {e1 e2 : List Event} (h1 : Trace c c1 e1)
    (h2 : Trace c1 c2 e2) : Trace c c2 (e1 ++ e2) := by
  obtain ⟨f1, k1, v1⟩ := h1
  obtain ⟨f2, k2, v2⟩ := h2
  refine ⟨frame_trans f1 f2, ?_, ?_⟩
  · intro R
    rw [calls_append, k1 R, k2 R]
    cases hc : c.static R with
    | some a =>
      have hc1 := f1.2 R a hc
      have hc2 := f2.2 R a hc1
      simp [became, hc, hc1, hc2]
    | none =>
      cases hc1 : c1.static R with
      | some a =>
        have hc2 := f2.2 R a hc1
        simp [became, hc, hc1, hc2]
      | none =>
        cases hc2 : c2.static R <;> simp [became, hc, hc1, hc2]
  · intro R v hc hc2
    cases hc1 : c1.static R with
    | some a =>
      have := f2.2 R a hc1
      rw [hc2] at this
      cases this
      obtain ⟨f, args, hf, hmem, hv⟩ := v1 R v hc hc1
      exact ⟨f, args, hf, List.mem_append_left _ hmem, hv⟩
    | none =>
      obtain ⟨f, args, hf, hmem, hv⟩ := v2 R v hc1 hc2
      exact ⟨f, args, by rw [← f1.1]; exact hf, List.mem_append_right _ hmem, hv⟩

/-- The last step of a resolution through a factory: the call and the store. -/
theorem trace_store (c : simple) (D : Ty) (f : Factory) (args : List Val)
    (hs : c.static D = none) (hf : c.factories D = some f) :
    Trace c { c with static := mapSet c.static D (f.body args) }
      [Event.factory f.id D args] := by
  refine ⟨⟨rfl, ?_⟩, ?_, ?_⟩
  · intro k v hk
    have hne : k ≠ D := by
      intro e
      rw [e, hs] at hk
      cases hk
    simpa [mapSet, hne] using hk
  · intro R
    by_cases e : R = D
    · subst e
      simp [calls, became, hs, Event.isFactoryFor]
    · have e2 : ¬ D = R := fun h => e h.symm
      cases h : c.static R <;>
        simp [calls, became, mapSet, e, e2, h, Event.isFactoryFor]
  · intro R v h1 h2
    by_cases e : R = D
    · subst e
      simp only [mapSet_same, Option.some.injEq] at h2
      exact ⟨f, args, hf, by simp, h2.symm⟩
    · simp only [mapSet, e, if_false] at h2
      rw [h1] at h2
      cases h2

theorem ByType_trace (n : Nat) : ∀ c t c1 ev r,
    simple.ByType n c t = some (c1, ev, r) → Trace c c1 ev := by
  induction n with
  | zero => intro c t c1 ev r h; simp [simple.ByType] at h
  | succ n ih =>
    intro c t c1 ev r h
    have hloop : ∀ need sig ps c c2 ev r,
        resolveParams (simple.ByType n) need sig ps c = some (c2, ev, r) → Trace c c2 ev :=
      fun need sig => resolveParams_lift Trace trace_refl
        (fun _ _ _ _ _ h1 h2 => trace_trans h1 h2) ih need sig
    rcases ByType_inv h with ⟨v, _, rfl, rfl, _⟩ | ⟨_, _, rfl, rfl, _⟩ | ⟨f, e, _, _, hp, _⟩ |
      ⟨f, c0, ev0, args, hs, hf, hp, rfl, rfl, _⟩
    · exact trace_refl _
    · exact trace_refl _
    · exact hloop _ _ _ _ _ _ _ hp
    · have h0 := hloop _ _ _ _ _ _ _ hp
      have hs0 := loop_keeps_need_unset hs hf hp
      have hf0 : c0.factories t = some f := by rw [h0.1.1]; exact hf
      exact trace_trans h0 (trace_store c0 t f args hs0 hf0)

theorem later_trace {c c2 : simple} {ev : List Event} (h : Later c c2 ev) : Trace c c2 ev := by
  induction h with
  | refl => exact trace_refl _
  | byType n t r _ h2 ih => exact trace_trans ih (ByType_trace _ _ _ _ _ _ h2)

theorem later_trans {c c1 c2 : simple} {e1 e2 : List Event} (h1 : Later c c1 e1)
    (h2 : Later c1 c2 e2) : ∃ ev, Later c c2 ev := by
  induction h2 with
  | refl => exact ⟨_, h1⟩
  | byType n t r _ h4 ih =>
    obtain ⟨ev, h5⟩ := ih
    exact ⟨_, Later.byType n t r h5 h4⟩

/-- A `ByType` call on a container is a `ByType` call on its own registry. -/
theorem containerByType_own {n : Nat} {C C1 : Container} {t : Ty} {ev : List Event}
    {r : Except String Val} (h : Container.ByType n C t = some (C1, ev, r)) :
    ∃ evl rl, simple.ByType n C.own t = some (C1.own, evl, rl) := by
  cases C with
  | simple c =>
    obtain ⟨c1, h1, rfl⟩ := containerByType_simple_inv h
    exact ⟨ev, r, h1⟩
  | wrapped loc P =>
    rcases containerByType_wrapped_inv h with ⟨loc1, v, h1, rfl, _⟩ |
      ⟨loc1, ev1, e, P1, ev2, h1, _, rfl, _⟩
    · exact ⟨ev, _, h1⟩
    · exact ⟨ev1, _, h1⟩

theorem injectParams_own {n : Nat} : ∀ (ps : List Ty) (C C1 : Container) (ev : List Event)
    (r : Except InjectError (List Val)),
    injectParams n ps C = some (C1, ev, r) → ∃ evl, Later C.own C1.own evl := by
  intro ps
  induction ps with
  | nil =>
    intro C C1 ev r h
    simp only [injectParams, Option.some.injEq, Prod.mk.injEq] at h
    obtain ⟨rfl, _, _⟩ := h
    exact ⟨[], Later.refl _⟩
  | cons p rest ih =>
    intro C C1 ev r h
    simp only [injectParams] at h
    cases hb : Container.ByType n C p with
    | none => simp [hb] at h
    | some x =>
      obtain ⟨c1, ev1, r1⟩ := x
      obtain ⟨evl, rl, hl⟩ := containerByType_own hb
      have hstep : Later C.own c1.own ([] ++ evl) := Later.byType n p rl (Later.refl _) hl
      rw [hb] at h
      cases r1 with
      | error e =>
        simp only [Option.some.injEq, Prod.mk.injEq] at h
        obtain ⟨rfl, _, _⟩ := h
        exact ⟨_, hstep⟩
      | ok v =>
        simp only at h
        cases hr : injectParams n rest c1 with
        | none => simp [hr] at h
        | some y =>
          obtain ⟨c2, ev2, r2⟩ := y
          obtain ⟨evl2, hl2⟩ := ih _ _ _ _ hr
          rw [hr] at h
          have hc : C1 = c2 := by
            cases r2 <;> simp only [Option.some.injEq, Prod.mk.injEq] at h <;> exact h.1.symm
          subst hc
          exact later_trans hstep hl2

theorem inject_own {n : Nat} {C C1 : Container} {d : Dependent} {ev : List Event}
    {r : Option InjectError} (h : Inject n C d = some (C1, ev, r)) :
    ∃ evl, Later C.own C1.own evl := by
  simp only [Inject] at h
  cases hp : injectParams n d.ins C with
  | none => simp [hp] at h
  | some x =>
    obtain ⟨c1, ev1, r1⟩ := x
    rw [hp] at h
    have hc : C1 = c1 := by
      cases r1 <;> simp only [Option.some.injEq, Prod.mk.injEq] at h <;> exact h.1.symm
    subst hc
    exact injectParams_own _ _ _ _ _ hp

theorem containerLater_own {C C2 : Container} (h : ContainerLater C C2) :
    ∃ ev, Later C.own C2.own ev := by
  induction h with
  | refl => exact ⟨[], Later.refl _⟩
  | byType n t ev r _ h2 ih =>
    obtain ⟨ev1, h1⟩ := ih
    obtain ⟨evl, rl, hl⟩ := containerByType_own h2
    exact ⟨_, Later.byType n t rl h1 hl⟩
  | inject n d ev r _ h2 ih =>
    obtain ⟨ev1, h1⟩ := ih
    obtain ⟨evl, hl⟩ := inject_own h2
    exact later_trans h1 hl

/-- C4 fails as stated: in a registry where `Pizza` has a static value, the
factory registered for `Pizza` is not invoked by the first resolution of `Pizza`,
which returns the static value; and in a registry where the parameter of the
factory has no provider, the first resolution of `Pizza` fails without invoking
the factory and stores nothing. -/
theorem factory_not_called_by_first_resolution :
    (shadowedRegistry.factories Pizza = some mushroomPizzaCreator ∧
      simple.ByType 1 shadowedRegistry Pizza =
        some (shadowedRegistry, [], .ok (pizzaOf "pepperoni")) ∧
      mushroomPizzaCreator.body [] ≠ pizzaOf "pepperoni") ∧
    ((New.ProvideLazily pizzaCreator).factories Pizza = some pizzaCreator ∧
      simple.ByType 2 (New.ProvideLazily pizzaCreator) Pizza =
        some (New.ProvideLazily pizzaCreator, [], .error (errNotFound Topping)) ∧
      (New.ProvideLazily pizzaCreator).static Pizza = none) :=
  ⟨⟨rfl, rfl, by decide⟩, ⟨rfl, rfl, rfl⟩⟩

/-- C4 (amended): let `f` be the factory registered for `R` in a registry `c`.
Across any sequence of `ByType` calls on `c`, the factory of `R` is called at most
once, not at all when `R` had a static value or has none at the end (no
resolution of `R` succeeded), and exactly once, with `f` and with the stored value
as its result, when `R` had no static value and has one at the end.  A successful `ByType(R)` on `c` while `R` has no static value calls `f` as
its last step, not before, and stores the result under `R`.  Once `R` has a static
value `v`, any sequence of `ByType` calls leaves it, makes no call of the factory
of `R`, and `ByType(R)` returns `v` without calling anything.  Every sequence of
`ByType` and `Inject` calls on a container is such a sequence of `ByType` calls on
the registry of the container, and `ByType(R)` on a container whose registry
holds `v` for `R` returns `v` without calling anything. -/
theorem factory_called_at_most_once (c : simple) (R : Ty) (f : Factory)
    (hf : c.factories R = some f) :
    (∀ c2 ev, Later c c2 ev →
      calls R ev ≤ 1 ∧ (c.static R ≠ none → calls R ev = 0) ∧
      (c2.static R = none → calls R ev = 0) ∧
      ∀ v, c.static R = none → c2.static R = some v →
        calls R ev = 1 ∧ ∃ args, Event.factory f.id R args ∈ ev ∧ v = f.body args) ∧
    (∀ n c1 ev v, c.static R = none → simple.ByType n c R = some (c1, ev, .ok v) →
      ∃ ev0 args, ev = ev0 ++ [Event.factory f.id R args] ∧ calls R ev0 = 0 ∧
        v = f.body args ∧ c1.static R = some v) ∧
    (∀ c1 v, c1.static R = some v → ∀ c2 ev2, Later c1 c2 ev2 →
      calls R ev2 = 0 ∧ c2.static R = some v ∧
      ∀ m, simple.ByType (m + 1) c2 R = some (c2, [], .ok v)) ∧
    (∀ C C2, ContainerLater C C2 → ∃ ev, Later C.own C2.own ev) ∧
    (∀ (C : Container) v m, C.own.static R = some v →
      Container.ByType (m + 1) C R = some (C, [], .ok v)) := by
  refine ⟨?_, ?_, ?_, fun _ _ h => containerLater_own h, ?_⟩
  · intro c2 ev h
    obtain ⟨hfr, hk, hv⟩ := later_trace h
    refine ⟨?_, ?_, ?_, ?_⟩
    · rw [hk R]
      unfold became
      split <;> simp
    · intro hne
      rw [hk R]
      cases hc : c.static R with
      | none => exact absurd hc hne
      | some a => simp [became, hc]
    · intro hc2
      rw [hk R]
      simp [became, hc2]
    · intro v hc hc2
      refine ⟨by rw [hk R]; simp [became, hc, hc2], ?_⟩
      obtain ⟨g, args, hg, hmem, hval⟩ := hv R v hc hc2
      rw [hf] at hg
      cases hg
      exact ⟨args, hmem, hval⟩
  · intro n c1 ev v hs h
    cases n with
    | zero => simp [simple.ByType] at h
    | succ n =>
      rcases ByType_inv h with ⟨w, hw, _, _, _⟩ | ⟨_, _, _, _, hr⟩ | ⟨g, e, _, _, _, hr⟩ |
        ⟨g, c0, ev0, args, _, hg, hp, rfl, rfl, hr⟩
      · rw [hs] at hw
        cases hw
      · cases hr
      · cases hr
      · rw [hf] at hg
        cases hg
        have h0 : Trace c c0 ev0 :=
          resolveParams_lift Trace trace_refl (fun _ _ _ _ _ h1 h2 => trace_trans h1 h2)
            (ByType_trace n) R f.ins f.ins c c0 ev0 _ hp
        have hs0 := loop_keeps_need_unset hs hf hp
        cases hr
        refine ⟨ev0, args, rfl, ?_, rfl, by simp⟩
        rw [h0.2.1 R]
        simp [became, hs, hs0]
  · intro c1 v hc1 c2 ev2 h
    obtain ⟨hfr, hk, _⟩ := later_trace h
    have hc2 := hfr.2 R v hc1
    refine ⟨by rw [hk R]; simp [became, hc1], hc2, ?_⟩
    intro m
    simp [simple.ByType, hc2]
  · intro C v m hC
    cases C with
    | simple c0 =>
      have hC2 : c0.static R = some v := hC
      simp [Container.ByType, simple.ByType, hC2]
    | wrapped loc P =>
      have hC2 : loc.static R = some v := hC
      simp [Container.ByType, simple.ByType, hC2]

/-- Witness for C4: the test "caches the result of the first call to the
factory": the first `ByType(Pizza)` calls `mushroomPizzaCreator`, the second
returns the stored pizza and calls nothing. -/
theorem factory_called_at_most_once_witness :
    simple.ByType 1 mushroomRegistry Pizza =
        some (mushroomStoredRegistry, [Event.factory 10 Pizza []],
          .ok (pizzaOf "mushrooms")) ∧
      calls Pizza [Event.factory 10 Pizza []] = 1 ∧
      simple.ByType 1 mushroomStoredRegistry Pizza =
        some (mushroomStoredRegistry, [], .ok (pizzaOf "mushrooms")) := by
  have h := factory_called_at_most_once mushroomRegistry Pizza mushroomPizzaCreator rfl
  have h1 : simple.ByType 1 mushroomRegistry Pizza =
      some (mushroomStoredRegistry, [Event.factory 10 Pizza []],
        .ok (pizzaOf "mushrooms")) := rfl
  have hl : Later mushroomRegistry mushroomStoredRegistry ([] ++ [Event.factory 10 Pizza []]) :=
    Later.byType 1 Pizza _ (Later.refl _) h1
  obtain ⟨_, _, _, _, _, hst⟩ := h.2.1 1 _ _ _ rfl h1
  exact ⟨h1, ((h.1 _ _ hl).2.2.2 _ rfl hst).1,
    (h.2.2.1 _ _ hst _ [] (Later.refl _)).2.2 0⟩

/-! ## The cycle guard -/

/-- What `isCircular` computes. -/
theorem isCircular_iff (need : Ty) (sig : List Ty) (factories : Ty → Option Factory) :
    isCircular need sig factories = true ↔
      ∃ p ∈ sig, ∃ g, factories p = some g ∧ need ∈ g.ins := by
  unfold isCircular
  rw [List.any_eq_true]
  constructor
  · rintro ⟨p, hp, h⟩
    cases hg : factories p with
    | none => simp [hg] at h
    | some g =>
      simp only [hg, List.any_eq_true, beq_iff_eq] at h
      obtain ⟨q, hq, rfl⟩ := h
      exact ⟨p, hp, g, hg, hq⟩
  · rintro ⟨p, hp, g, hg, hn⟩
    refine ⟨p, hp, ?_⟩
    simp only [hg, List.any_eq_true, beq_iff_eq]
    exact ⟨need, hn, rfl⟩

/-- C17: a call `ByType(D)` that returns, with a value or with an error, leaves
the factory map identical and keeps every static entry with its value; every
static entry it adds is keyed by a descriptor that has a registered factory and
holds the value returned by the one call of that factory made during the
resolution; a descriptor whose entry is unchanged had no call of its factory. -/
theorem byType_only_memoizes (n : Nat) (c c1 : simple) (D : Ty) (ev : List Event)
    (r : Except String Val) (h : simple.ByType n c D = some (c1, ev, r)) :
    c1.factories = c.factories ∧
    (∀ k v, c.static k = some v → c1.static k = some v) ∧
    (∀ k v, c.static k = none → c1.static k = some v →
      ∃ f args, c.factories k = some f ∧ Event.factory f.id k args ∈ ev ∧
        calls k ev = 1 ∧ v = f.body args) ∧
    (∀ k, c1.static k = c.static k → calls k ev = 0) := by
  obtain ⟨hfr, hk, hv⟩ := ByType_trace n c D c1 ev r h
  refine ⟨hfr.1, hfr.2, ?_, ?_⟩
  · intro k v h0 h1
    obtain ⟨f, args, hf, hmem, hval⟩ := hv k v h0 h1
    exact ⟨f, args, hf, hmem, by rw [hk k]; simp [became, h0, h1], hval⟩
  · intro k hsame
    rw [hk k]
    cases h0 : c.static k <;> simp [became, hsame, h0]

/-- Witness for C17: the first `ByType(Pizza)` on the registry holding
`mushroomPizzaCreator`. -/
theorem byType_only_memoizes_witness :
    mushroomStoredRegistry.factories = mushroomRegistry.factories ∧
      calls Pizza [Event.factory 10 Pizza []] = 1 ∧
      calls Topping [Event.factory 10 Pizza []] = 0 := by
  have h := byType_only_memoizes 1 mushroomRegistry mushroomStoredRegistry Pizza
    [Event.factory 10 Pizza []] (.ok (pizzaOf "mushrooms")) rfl
  obtain ⟨f, args, _, _, hc, _⟩ := h.2.2.1 Pizza (pizzaOf "mushrooms") rfl rfl
  exact ⟨h.1, hc, h.2.2.2 Topping rfl⟩

/-- C18: in `ByType(D)`, when `D` has no static value and its factory has the
parameters `p1 :: rest`, of which any one, at any position, has a registered
factory taking `D`, the call fails at once, for every depth bound, with the
circular-dependency error naming `D` and the first parameter `p1`; no function is
called and the registry is unchanged.  A factory without parameters never trips
the guard: it is called and its result stored. -/
theorem guard_scans_whole_signature (c : simple) (D : Ty) (f : Factory)
    (hs : c.static D = none) (hf : c.factories D = some f) :
    (∀ p1 rest, f.ins = p1 :: rest →
      (∃ p ∈ f.ins, ∃ g, c.factories p = some g ∧ D ∈ g.ins) →
      ∀ n, simple.ByType (n + 1) c D = some (c, [], .error (errCircular D p1))) ∧
    (f.ins = [] →
      ∀ n, simple.ByType (n + 1) c D =
        some ({ c with static := mapSet c.static D (f.body []) },
          [Event.factory f.id D []], .ok (f.body []))) := by
  constructor
  · intro p1 rest hins hcyc n
    have hg : isCircular D (p1 :: rest) c.factories = true := by
      rw [← hins]
      exact (isCircular_iff D f.ins c.factories).2 hcyc
    simp [simple.ByType, hs, hf, hins, resolveParams, hg]
  · intro hins n
    simp [simple.ByType, hs, hf, hins, resolveParams]

/-- Witness for C18: `Pizza` needs `Topping` and `Sauce`, the cycle goes through
`Sauce`, the error names `Topping`. -/
theorem guard_scans_whole_signature_witness :
    simple.ByType 1 sauceCycleRegistry Pizza =
      some (sauceCycleRegistry, [],
        .error "Circular dependency for divine_test.Pizza: it requires divine_test.Topping which in turn requires divine_test.Pizza") :=
  (guard_scans_whole_signature sauceCycleRegistry Pizza toppedPizzaCreator rfl rfl).1
    Topping [Sauce] rfl ⟨Sauce, by decide, sauceCreator, rfl, by decide⟩ 0

/-- C15 fails as stated: `Pizza` needs `Topping` and `Sauce`, `Topping` has a
static value and no factory, `Sauce` needs `Pizza`: `ByType(Pizza)` fails before
`Topping` is resolved, and the error names `Topping`, not `Sauce`, as the parameter
that requires `Pizza`.  When `Topping` has no provider at all, the same
circular-dependency error is returned instead of the not-found error of
`Topping`. -/
theorem guard_names_wrong_parameter :
    toppedSauceCycleRegistry.static Topping = some (toppingOf "pepperoni") ∧
      (toppedSauceCycleRegistry.factories Topping).isNone = true ∧
      simple.ByType 3 toppedSauceCycleRegistry Pizza =
        some (toppedSauceCycleRegistry, [],
          .error "Circular dependency for divine_test.Pizza: it requires divine_test.Topping which in turn requires divine_test.Pizza") ∧
      sauceCycleRegistry.static Topping = none ∧
      (sauceCycleRegistry.factories Topping).isNone = true ∧
      simple.ByType 3 sauceCycleRegistry Pizza =
        some (sauceCycleRegistry, [],
          .error "Circular dependency for divine_test.Pizza: it requires divine_test.Topping which in turn requires divine_test.Pizza") :=
  ⟨rfl, rfl, rfl, rfl, rfl, rfl⟩

/-- When the guard does not trip, the parameter loop stops at the first parameter
whose resolution fails and returns its error. -/
theorem resolveParams_first_failure {n : Nat} {c c1 c2 : simple} {pre : List Ty}
    {ev ev2 : List Event} {vs : List Val} (need : Ty) (sig : List Ty) (p : Ty)
    (post : List Ty) {e : String} (h : ResolvesAll n c pre c1 ev vs)
    (hg : isCircular need sig c.factories = false)
    (hfail : simple.ByType n c1 p = some (c2, ev2, .error e)) :
    resolveParams (simple.ByType n) need sig (pre ++ p :: post) c =
      some (c2, ev ++ ev2, .error e) := by
  induction h with
  | nil c => simp [resolveParams, hg, hfail]
  | cons h1 _ ih =>
    have hfr := ByType_frame _ _ _ _ _ _ h1
    have hg1 := hg
    rw [← hfr.1] at hg1
    simp [resolveParams, hg, h1, ih hg1 hfail]

/-- C15 (amended): in `ByType(D)`, for `D` without static value and with factory
`f`, the guard is evaluated before the first parameter is resolved and looks at
the registered factories of all the parameters of `f`: when one of them takes
`D`, the call fails at once with the circular-dependency error for `D`, nothing
being resolved or called; when none does, the parameters are resolved from left
to right and the first one whose resolution fails ends the call with its error,
the later ones not being resolved. -/
theorem guard_runs_before_first_parameter (c : simple) (D : Ty) (f : Factory)
    (hs : c.static D = none) (hf : c.factories D = some f) :
    ((∃ p ∈ f.ins, ∃ g, c.factories p = some g ∧ D ∈ g.ins) →
      ∀ n, ∃ q ∈ f.ins, simple.ByType (n + 1) c D = some (c, [], .error (errCircular D q))) ∧
    ((¬ ∃ p ∈ f.ins, ∃ g, c.factories p = some g ∧ D ∈ g.ins) →
      ∀ n pre p post c1 ev vs c2 ev2 e, f.ins = pre ++ p :: post →
        ResolvesAll n c pre c1 ev vs →
        simple.ByType n c1 p = some (c2, ev2, .error e) →
        simple.ByType (n + 1) c D = some (c2, ev ++ ev2, .error e)) := by
  constructor
  · intro hcyc n
    have hg := (isCircular_iff D f.ins c.factories).2 hcyc
    cases hins : f.ins with
    | nil => simp [hins, isCircular] at hg
    | cons p1 rest =>
      refine ⟨p1, by simp, ?_⟩
      rw [hins] at hg
      simp [simple.ByType, hs, hf, hins, resolveParams, hg]
  · intro hno n pre p post c1 ev vs c2 ev2 e hins hall hfail
    have hg : isCircular D f.ins c.factories = false := by
      cases hb : isCircular D f.ins c.factories with
      | false => rfl
      | true => exact absurd ((isCircular_iff D f.ins c.factories).1 hb) hno
    have hp := resolveParams_first_failure D f.ins p post hall hg hfail
    rw [← hins] at hp
    simp [simple.ByType, hs, hf, hp]

/-- Witness for C15: a cycle through the second parameter, and a first parameter
without provider. -/
theorem guard_runs_before_first_parameter_witness :
    (∃ q ∈ [Topping, Sauce], simple.ByType 1 toppedSauceCycleRegistry Pizza =
        some (toppedSauceCycleRegistry, [], .error (errCircular Pizza q))) ∧
      simple.ByType 2 (New.ProvideLazily slicedToppedPizzaCreator) Pizza =
        some (New.ProvideLazily slicedToppedPizzaCreator, [],
          .error "You can't always get what you want (divine_test.Sliced)") :=
  ⟨(guard_runs_before_first_parameter toppedSauceCycleRegistry Pizza toppedPizzaCreator
      rfl rfl).1 ⟨Sauce, by decide, sauceCreator, rfl, by decide⟩ 0,
    (guard_runs_before_first_parameter (New.ProvideLazily slicedToppedPizzaCreator) Pizza
      slicedToppedPizzaCreator rfl rfl).2
      (by
        rintro ⟨p, hp, g, hg, _⟩
        have hp2 : p = Sliced ∨ p = Topping := by
          have : p ∈ [Sliced, Topping] := hp
          simpa using this
        rcases hp2 with rfl | rfl
        · have h2 : (New.ProvideLazily slicedToppedPizzaCreator).factories Sliced = none := rfl
          rw [h2] at hg
          cases hg
        · have h2 : (New.ProvideLazily slicedToppedPizzaCreator).factories Topping = none := rfl
          rw [h2] at hg
          cases hg)
      1 [] Sliced [Topping] (New.ProvideLazily slicedToppedPizzaCreator) [] []
      (New.ProvideLazily slicedToppedPizzaCreator) []
      "You can't always get what you want (divine_test.Sliced)" rfl
      (ResolvesAll.nil _) rfl⟩

/-- When the guard does not trip, an error of the parameter loop is the error of
the resolution of one of the parameters. -/
theorem resolveParams_error_origin {n : Nat} (need : Ty) (sig : List Ty) :
    ∀ ps c c1 ev e, isCircular need sig c.factories = false →
      resolveParams (simple.ByType n) need sig ps c = some (c1, ev, .error e) →
      ∃ p ∈ ps, ∃ c2 c3 ev2, Frame c c2 ∧ simple.ByType n c2 p = some (c3, ev2, .error e) := by
  intro ps
  induction ps with
  | nil =>
    intro c c1 ev e _ h
    obtain ⟨_, _, hr⟩ := resolveParams_nil_inv h
    cases hr
  | cons p rest ih =>
    intro c c1 ev e hg h
    rcases resolveParams_cons_inv h with ⟨hc, _⟩ | ⟨_, e2, h1, hr⟩ |
      ⟨_, c0, ev1, v, ev2, r2, h1, h2, _, hr⟩
    · rw [hg] at hc
      cases hc
    · cases hr
      exact ⟨p, by simp, c, c1, ev, frame_refl c, h1⟩
    · have hfr := ByType_frame _ _ _ _ _ _ h1
      cases r2 with
      | ok vs => cases hr
      | error e3 =>
        cases hr
        have hg0 : isCircular need sig c0.factories = false := by rw [hfr.1]; exact hg
        obtain ⟨q, hq, c2, c3, ev3, hf2, h3⟩ := ih c0 c1 ev2 e hg0 h2
        exact ⟨q, by simp [hq], c2, c3, ev3, frame_trans hfr hf2, h3⟩

/-- Every error of a resolution has an origin. -/
theorem ByType_error_origin (n : Nat) : ∀ c D c1 ev e,
    simple.ByType n c D = some (c1, ev, .error e) → ∃ u, ErrorOrigin c D e u := by
  induction n with
  | zero => intro c D c1 ev e h; simp [simple.ByType] at h
  | succ n ih =>
    intro c D c1 ev e h
    rcases ByType_inv h with ⟨v, _, _, _, hr⟩ | ⟨hs, hnf, _, _, hr⟩ | ⟨f, e2, hs, hf, hp, hr⟩ |
      ⟨f, c0, ev0, args, _, _, _, _, _, hr⟩
    · cases hr
    · cases hr
      exact ⟨D, Or.inl ⟨rfl, hs, hnf, Or.inl rfl⟩⟩
    · cases hr
      cases hg : isCircular D f.ins c.factories with
      | true =>
        cases hins : f.ins with
        | nil => simp [hins, isCircular] at hg
        | cons p1 rest =>
          have hg2 := hg
          rw [hins] at hg2
          rw [hins] at hp
          simp only [resolveParams, hg2, if_true, Option.some.injEq, Prod.mk.injEq,
            Except.error.injEq] at hp
          obtain ⟨_, _, he⟩ := hp
          exact ⟨D, Or.inr ⟨f, p1, rest, hf, hins, hg, he.symm⟩⟩
      | false =>
        obtain ⟨p, hp1, c2, c3, ev2, hfr, h2⟩ :=
          resolveParams_error_origin D f.ins f.ins c c1 ev e hg hp
        obtain ⟨u, hu⟩ := ih c2 p c3 ev2 e h2
        refine ⟨u, ?_⟩
        rcases hu with ⟨he, hsu, hfu, hwhere⟩ | ⟨g, q, rest, hgu, hins, hcirc, he⟩
        · refine Or.inl ⟨he, ?_, by rw [← hfr.1]; exact hfu, ?_⟩
          · cases hcs : c.static u with
            | none => rfl
            | some v =>
              rw [hfr.2 u v hcs] at hsu
              cases hsu
          · rcases hwhere with rfl | ⟨s, g, hsg, hug⟩
            · exact Or.inr ⟨D, f, hf, hp1⟩
            · exact Or.inr ⟨s, g, by rw [← hfr.1]; exact hsg, hug⟩
        · exact Or.inr ⟨g, q, rest, by rw [← hfr.1]; exact hgu, hins,
            by rw [← hfr.1]; exact hcirc, he⟩
    · cases hr

/-- The factories of `laterCycleRegistry`. -/
theorem laterCycleRegistry_factories (t : Ty) (g : Factory)
    (h : laterCycleRegistry.factories t = some g) :
    (t = Pizza ∧ g = slicedToppedPizzaCreator) ∨ (t = Topping ∧ g = slicedSauceToppingCreator) ∨
      (t = Sauce ∧ g = slicedPizzaSauceCreator) := by
  by_cases h1 : t = Sauce
  · subst h1
    have h2 : laterCycleRegistry.factories Sauce = some slicedPizzaSauceCreator := rfl
    rw [h2] at h
    exact Or.inr (Or.inr ⟨rfl, (Option.some.inj h).symm⟩)
  · by_cases h2 : t = Topping
    · subst h2
      have h3 : laterCycleRegistry.factories Topping = some slicedSauceToppingCreator := rfl
      rw [h3] at h
      exact Or.inr (Or.inl ⟨rfl, (Option.some.inj h).symm⟩)
    · by_cases h3 : t = Pizza
      · subst h3
        have h4 : laterCycleRegistry.factories Pizza = some slicedToppedPizzaCreator := rfl
        rw [h4] at h
        exact Or.inl ⟨rfl, (Option.some.inj h).symm⟩
      · have h4 : laterCycleRegistry.factories t = none := by
          have e1 : slicedPizzaSauceCreator.out = Sauce := rfl
          have e2 : slicedSauceToppingCreator.out = Topping := rfl
          have e3 : slicedToppedPizzaCreator.out = Pizza := rfl
          simp [laterCycleRegistry, simple.ProvideLazily, mapSet, slicedPlainRegistry, New,
            e1, e2, e3, h1, h2, h3]
        rw [h4] at h
        cases h

/-- C16 fails as stated, in both halves.  First, `Topping` has no static value and
its factory takes only `ToppingAlike`, whose factory takes only `Sauce`: no
parameter of the factory of `Topping` has a factory taking `Topping`, and the
guard of `Topping` does not trip; yet `ByType(Topping)` fails with the text of
the circular-dependency error for requester `Topping`, raised by the guard of
`ToppingAlike`, which prints like `Topping`.  Second, the factories of `Pizza`,
`Topping` and `Sauce` of `blockedCycleRegistry` form the cycle
`Pizza -> Topping -> Sauce -> Pizza`, no guard trips and there is no static
value, yet `ByType(Pizza)` returns at depth two, with the not-found error of the
parameter `Sliced` that comes before `Topping`. -/
theorem two_hop_characterisation_fails :
    (alikeRegistry.static Topping = none ∧
      (alikeRegistry.factories Topping).map (fun f => f.ins) = some [ToppingAlike] ∧
      (alikeRegistry.factories ToppingAlike).map (fun f => f.ins) = some [Sauce] ∧
      isCircular Topping [ToppingAlike] alikeRegistry.factories = false ∧
      simple.ByType 2 alikeRegistry Topping =
        some (alikeRegistry, [], .error (errCircular Topping Sauce)) ∧
      errCircular Topping Sauce =
        "Circular dependency for divine_test.Topping: it requires divine_test.Sauce which in turn requires divine_test.Topping") ∧
    ((blockedCycleRegistry.factories Pizza).map (fun f => f.ins) = some [Sliced, Topping] ∧
      (blockedCycleRegistry.factories Topping).map (fun f => f.ins) = some [Sauce] ∧
      (blockedCycleRegistry.factories Sauce).map (fun f => f.ins) = some [Pizza]) ∧
    (isCircular Pizza [Sliced, Topping] blockedCycleRegistry.factories = false ∧
      isCircular Topping [Sauce] blockedCycleRegistry.factories = false ∧
      isCircular Sauce [Pizza] blockedCycleRegistry.factories = false) ∧
    (blockedCycleRegistry.static Pizza = none ∧ blockedCycleRegistry.static Topping = none ∧
      blockedCycleRegistry.static Sauce = none ∧ blockedCycleRegistry.static Sliced = none) ∧
    simple.ByType 2 blockedCycleRegistry Pizza =
      some (blockedCycleRegistry, [],
        .error "You can't always get what you want (divine_test.Sliced)") :=
  ⟨⟨rfl, rfl, rfl, rfl, rfl, by decide⟩, ⟨rfl, rfl, rfl⟩, ⟨rfl, rfl, rfl⟩,
    ⟨rfl, rfl, rfl, rfl⟩, rfl⟩

/-- C16 (amended): for `D` without static value and with factory `f`, the guard
of `D` trips exactly when some parameter of `f` has a registered factory taking
`D`; `ByType(D)` fails at once, at every depth from one on, with the registry
unchanged and no factory called, with the circular-dependency error for `D`
exactly in that case; otherwise an error of `ByType(D)` is the error returned by
the resolution of one of the parameters, and every error of `ByType(D)` is the
not-found error of a descriptor without provider or the circular-dependency
error raised by the guard of a descriptor with such a parameter.  On a set of
descriptors without static values, each with a factory whose first parameter is
again in the set and whose guard does not trip, `ByType` returns at no depth.
On a list `cycle` of descriptors without static values, each with a factory
that has some parameter in the list and whose guard does not trip (a cycle of
three or more factories through any parameters), `ByType` never succeeds: what
it returns is an error whose origin lies outside the list, so that it either
returns at no depth or ends with such an error; and it returns at no depth when
no guard of the registry trips and every parameter of every registered factory
has a provider. -/
theorem guard_detects_two_hop_only (c : simple) (D : Ty) (f : Factory)
    (hs : c.static D = none) (hf : c.factories D = some f) :
    (isCircular D f.ins c.factories = true ↔
      ∃ p ∈ f.ins, ∃ g, c.factories p = some g ∧ D ∈ g.ins) ∧
    ((∃ p ∈ f.ins, ∃ g, c.factories p = some g ∧ D ∈ g.ins) →
      ∃ p1, f.ins.head? = some p1 ∧
        ∀ n, simple.ByType (n + 1) c D = some (c, [], .error (errCircular D p1))) ∧
    ((∃ q, ∀ n, simple.ByType (n + 1) c D = some (c, [], .error (errCircular D q))) ↔
      ∃ p ∈ f.ins, ∃ g, c.factories p = some g ∧ D ∈ g.ins) ∧
    ((¬ ∃ p ∈ f.ins, ∃ g, c.factories p = some g ∧ D ∈ g.ins) →
      ∀ n c1 ev e, simple.ByType (n + 1) c D = some (c1, ev, .error e) →
        ∃ p ∈ f.ins, ∃ c2 c3 ev2, Frame c c2 ∧
          simple.ByType n c2 p = some (c3, ev2, .error e)) ∧
    (∀ n c1 ev e, simple.ByType n c D = some (c1, ev, .error e) →
      ∃ u, ErrorOrigin c D e u) ∧
    (∀ S : Ty → Prop,
      (∀ t, S t → c.static t = none ∧ ∃ g p rest, c.factories t = some g ∧
        g.ins = p :: rest ∧ S p ∧ isCircular t g.ins c.factories = false) →
      ∀ n t, S t → simple.ByType n c t = none) ∧
    (∀ cycle : List Ty,
      (∀ t ∈ cycle, c.static t = none ∧ ∃ g, c.factories t = some g ∧
        (∃ p ∈ g.ins, p ∈ cycle) ∧ isCircular t g.ins c.factories = false) →
      (∀ n t, t ∈ cycle → ∀ c1 ev r, simple.ByType n c t = some (c1, ev, r) →
        ∃ e u, r = .error e ∧ ErrorOrigin c t e u ∧ u ∉ cycle) ∧
      (∀ t ∈ cycle, (∀ n, simple.ByType n c t = none) ∨
        ∃ n c1 ev e u, simple.ByType n c t = some (c1, ev, .error e) ∧
          ErrorOrigin c t e u ∧ u ∉ cycle) ∧
      ((∀ t g, c.factories t = some g → isCircular t g.ins c.factories = false ∧
          ∀ p ∈ g.ins, c.static p ≠ none ∨ c.factories p ≠ none) →
        ∀ n t, t ∈ cycle → simple.ByType n c t = none)) := by
  have hhead : (∃ p ∈ f.ins, ∃ g, c.factories p = some g ∧ D ∈ g.ins) →
      ∃ p1, f.ins.head? = some p1 ∧
        ∀ n, simple.ByType (n + 1) c D = some (c, [], .error (errCircular D p1)) := by
    intro hcyc
    have hg := (isCircular_iff D f.ins c.factories).2 hcyc
    cases hins : f.ins with
    | nil => simp [hins, isCircular] at hg
    | cons p1 rest =>
      refine ⟨p1, rfl, ?_⟩
      intro n
      rw [hins] at hg
      simp [simple.ByType, hs, hf, hins, resolveParams, hg]
  have hfalse : (¬ ∃ p ∈ f.ins, ∃ g, c.factories p = some g ∧ D ∈ g.ins) →
      isCircular D f.ins c.factories = false := by
    intro hno
    cases hb : isCircular D f.ins c.factories with
    | false => rfl
    | true => exact absurd ((isCircular_iff D f.ins c.factories).1 hb) hno
  have hcycle : ∀ cycle : List Ty,
      (∀ t ∈ cycle, c.static t = none ∧ ∃ g, c.factories t = some g ∧
        (∃ p ∈ g.ins, p ∈ cycle) ∧ isCircular t g.ins c.factories = false) →
      ∀ n t, t ∈ cycle → ∀ c1 ev r, simple.ByType n c t = some (c1, ev, r) →
        ∃ e u, r = .error e ∧ ErrorOrigin c t e u ∧ u ∉ cycle := by
    intro cycle hc n t ht c1 ev r h
    have hpend : Pending cycle c t := by
      intro S hS
      obtain ⟨hst, g, hg, ⟨p, hp, hpc⟩, _⟩ := hc S hS
      exact ⟨hst, g, hg, p, hp, Or.inl hpc⟩
    obtain ⟨e, rfl⟩ := (pending_invariant n cycle c t c1 ev r hpend h).2 ht
    obtain ⟨u, hu⟩ := ByType_error_origin n c t c1 ev e h
    refine ⟨e, u, rfl, hu, ?_⟩
    intro huc
    obtain ⟨_, g, hg, _, hcirc⟩ := hc u huc
    rcases hu with ⟨_, _, hfu, _⟩ | ⟨g2, q, rest, hg2, _, hcirc2, _⟩
    · rw [hfu] at hg
      cases hg
    · rw [hg] at hg2
      cases hg2
      rw [hcirc] at hcirc2
      cases hcirc2
  refine ⟨isCircular_iff D f.ins c.factories, hhead, ⟨?_, ?_⟩, ?_,
    fun n c1 ev e h => ByType_error_origin n c D c1 ev e h, ?_, ?_⟩
  · rintro ⟨q, hq⟩
    by_contra hno
    have hg := hfalse hno
    have h1 := hq 0
    cases hins : f.ins with
    | nil => simp [simple.ByType, hs, hf, hins, resolveParams] at h1
    | cons p1 rest =>
      rw [hins] at hg
      simp [simple.ByType, hs, hf, hins, resolveParams, hg] at h1
  · intro hcyc
    obtain ⟨p1, _, h1⟩ := hhead hcyc
    exact ⟨p1, h1⟩
  · intro hno n c1 ev e h
    have hg := hfalse hno
    rcases ByType_inv h with ⟨v, hv, _⟩ | ⟨_, hnf, _⟩ | ⟨g, e2, _, hg2, hp, hr⟩ |
      ⟨g, c0, ev0, args, _, _, _, _, _, hr⟩
    · rw [hs] at hv
      cases hv
    · rw [hf] at hnf
      cases hnf
    · rw [hf] at hg2
      cases hg2
      cases hr
      exact resolveParams_error_origin D f.ins f.ins c c1 ev e hg hp
    · cases hr
  · intro S hS n
    induction n with
    | zero => intro t _; rfl
    | succ n ih =>
      intro t ht
      obtain ⟨hst, g, p, rest, hg, hins, hp, hcirc⟩ := hS t ht
      have hcirc2 : isCircular t (p :: rest) c.factories = false := by
        rw [← hins]
        exact hcirc
      simp [simple.ByType, hst, hg, hins, resolveParams, hcirc2, ih p hp]
  · intro cycle hc
    refine ⟨hcycle cycle hc, ?_, ?_⟩
    · intro t ht
      by_cases hnone : ∀ n, simple.ByType n c t = none
      · exact Or.inl hnone
      · right
        obtain ⟨n, hn⟩ := not_forall.1 hnone
        cases h : simple.ByType n c t with
        | none => exact absurd h hn
        | some x =>
          obtain ⟨c1, ev, r⟩ := x
          obtain ⟨e, u, rfl, hu, hout⟩ := hcycle cycle hc n t ht c1 ev r h
          exact ⟨n, c1, ev, e, u, h, hu, hout⟩
    intro hall n t ht
    cases h : simple.ByType n c t with
    | none => rfl
    | some x =>
      obtain ⟨c1, ev, r⟩ := x
      obtain ⟨e, u, _, hu, _⟩ := hcycle cycle hc n t ht c1 ev r h
      obtain ⟨_, gt, hgt, _, _⟩ := hc t ht
      rcases hu with ⟨_, hsu, hfu, hwhere⟩ | ⟨g2, q, rest, hg2, _, hcirc2, _⟩
      · rcases hwhere with rfl | ⟨s, g, hsg, hug⟩
        · rw [hfu] at hgt
          cases hgt
        · rcases (hall s g hsg).2 u hug with h1 | h1
          · exact absurd hsu h1
          · exact absurd hfu h1
      · have := (hall u g2 hg2).1
        rw [this] at hcirc2
        cases hcirc2

/-- Witness for C16: the cycle `Pizza -> Topping -> Sauce -> Pizza` through first
parameters, and the same cycle through second parameters with the first
parameter provided. -/
theorem guard_detects_two_hop_only_witness :
    simple.ByType 7 threeCycleRegistry Pizza = none ∧
      simple.ByType 7 laterCycleRegistry Pizza = none := by
  constructor
  · have h := (guard_detects_two_hop_only threeCycleRegistry Pizza pizzaCreator rfl
      rfl).2.2.2.2.2.1 (fun t => t = Pizza ∨ t = Topping ∨ t = Sauce)
    apply h
    · intro t ht
      rcases ht with rfl | rfl | rfl
      · exact ⟨rfl, pizzaCreator, Topping, [], rfl, rfl, Or.inr (Or.inl rfl), rfl⟩
      · exact ⟨rfl, toppingCreator, Sauce, [], rfl, rfl, Or.inr (Or.inr rfl), rfl⟩
      · exact ⟨rfl, sauceCreator, Pizza, [], rfl, rfl, Or.inl rfl, rfl⟩
    · exact Or.inl rfl
  · have h := ((guard_detects_two_hop_only laterCycleRegistry Pizza slicedToppedPizzaCreator
      rfl rfl).2.2.2.2.2.2 [Pizza, Topping, Sauce] ?_).2.2 ?_ 7 Pizza (by simp)
    · exact h
    · intro t ht
      have ht2 : t = Pizza ∨ t = Topping ∨ t = Sauce := by simpa using ht
      rcases ht2 with rfl | rfl | rfl
      · exact ⟨rfl, slicedToppedPizzaCreator, rfl, ⟨Topping, by decide, by decide⟩, rfl⟩
      · exact ⟨rfl, slicedSauceToppingCreator, rfl, ⟨Sauce, by decide, by decide⟩, rfl⟩
      · exact ⟨rfl, slicedPizzaSauceCreator, rfl, ⟨Pizza, by decide, by decide⟩, rfl⟩
    · intro t g hg
      rcases laterCycleRegistry_factories t g hg with ⟨rfl, rfl⟩ | ⟨rfl, rfl⟩ | ⟨rfl, rfl⟩
      · refine ⟨rfl, ?_⟩
        intro p hp
        have hp2 : p = Sliced ∨ p = Topping := by
          have : p ∈ [Sliced, Topping] := hp
          simpa using this
        rcases hp2 with rfl | rfl
        · exact Or.inl (by decide)
        · exact Or.inr (by rw [show laterCycleRegistry.factories Topping =
            some slicedSauceToppingCreator from rfl]; simp)
      · refine ⟨rfl, ?_⟩
        intro p hp
        have hp2 : p = Sliced ∨ p = Sauce := by
          have : p ∈ [Sliced, Sauce] := hp
          simpa using this
        rcases hp2 with rfl | rfl
        · exact Or.inl (by decide)
        · exact Or.inr (by rw [show laterCycleRegistry.factories Sauce =
            some slicedPizzaSauceCreator from rfl]; simp)
      · refine ⟨rfl, ?_⟩
        intro p hp
        have hp2 : p = Sliced ∨ p = Pizza := by
          have : p ∈ [Sliced, Pizza] := hp
          simpa using this
        rcases hp2 with rfl | rfl
        · exact Or.inl (by decide)
        · exact Or.inr (by rw [show laterCycleRegistry.factories Pizza =
            some slicedToppedPizzaCreator from rfl]; simp)

/-! ## Frames of container calls -/

theorem containerFrame_refl : ∀ C : Container, ContainerFrame C C := by
  intro C
  induction C with
  | simple c => exact frame_refl c
  | wrapped loc P ih => exact ⟨frame_refl loc, ih⟩

theorem containerFrame_trans : ∀ {C C1 C2 : Container}, ContainerFrame C C1 →
    ContainerFrame C1 C2 → ContainerFrame C C2 := by
  intro C
  induction C with
  | simple c =>
    intro C1 C2 h1 h2
    cases C1 with
    | simple c1 =>
      cases C2 with
      | simple c2 => exact frame_trans h1 h2
      | wrapped _ _ => exact h2.elim
    | wrapped _ _ => exact h1.elim
  | wrapped loc P ih =>
    intro C1 C2 h1 h2
    cases C1 with
    | simple c1 => exact h1.elim
    | wrapped loc1 P1 =>
      cases C2 with
      | simple _ => exact h2.elim
      | wrapped loc2 P2 => exact ⟨frame_trans h1.1 h2.1, ih h1.2 h2.2⟩

theorem containerByType_frame (n : Nat) : ∀ (C : Container) t C1 ev r,
    Container.ByType n C t = some (C1, ev, r) → ContainerFrame C C1 := by
  intro C
  induction C with
  | simple c =>
    intro t C1 ev r h
    obtain ⟨c1, h1, rfl⟩ := containerByType_simple_inv h
    exact ByType_frame _ _ _ _ _ _ h1
  | wrapped loc P ih =>
    intro t C1 ev r h
    rcases containerByType_wrapped_inv h with ⟨loc1, v, h1, rfl, _⟩ |
      ⟨loc1, ev1, e, P1, ev2, h1, h2, rfl, _⟩
    · exact ⟨ByType_frame _ _ _ _ _ _ h1, containerFrame_refl P⟩
    · exact ⟨ByType_frame _ _ _ _ _ _ h1, ih _ _ _ _ h2⟩

theorem injectParams_frame (n : Nat) : ∀ (ps : List Ty) (C C1 : Container) (ev : List Event)
    (r : Except InjectError (List Val)),
    injectParams n ps C = some (C1, ev, r) → ContainerFrame C C1 ∧ NoDependent ev := by
  intro ps
  induction ps with
  | nil =>
    intro C C1 ev r h
    simp only [injectParams, Option.some.injEq, Prod.mk.injEq] at h
    obtain ⟨rfl, rfl, _⟩ := h
    exact ⟨containerFrame_refl _, fun e he => by simp at he⟩
  | cons p rest ih =>
    intro C C1 ev r h
    simp only [injectParams] at h
    cases hb : Container.ByType n C p with
    | none => simp [hb] at h
    | some x =>
      obtain ⟨c1, ev1, r1⟩ := x
      have hfr := containerByType_frame n _ _ _ _ _ hb
      have hnd := containerByType_noDependent n _ _ _ _ _ hb
      rw [hb] at h
      cases r1 with
      | error e =>
        simp only [Option.some.injEq, Prod.mk.injEq] at h
        obtain ⟨rfl, rfl, _⟩ := h
        exact ⟨hfr, hnd⟩
      | ok v =>
        simp only at h
        cases hr : injectParams n rest c1 with
        | none => simp [hr] at h
        | some y =>
          obtain ⟨c2, ev2, r2⟩ := y
          obtain ⟨hfr2, hnd2⟩ := ih _ _ _ _ hr
          rw [hr] at h
          have hc : C1 = c2 ∧ ev = ev1 ++ ev2 := by
            cases r2 <;> simp only [Option.some.injEq, Prod.mk.injEq] at h <;>
              exact ⟨h.1.symm, h.2.1.symm⟩
          obtain ⟨rfl, rfl⟩ := hc
          exact ⟨containerFrame_trans hfr hfr2, noDependent_append hnd hnd2⟩

theorem inject_frame {n : Nat} {C C1 : Container} {d : Dependent} {ev : List Event}
    {r : Option InjectError} (h : Inject n C d = some (C1, ev, r)) :
    ContainerFrame C C1 := by
  simp only [Inject] at h
  cases hp : injectParams n d.ins C with
  | none => simp [hp] at h
  | some x =>
    obtain ⟨c1, ev1, r1⟩ := x
    rw [hp] at h
    have hc : C1 = c1 := by
      cases r1 <;> simp only [Option.some.injEq, Prod.mk.injEq] at h <;> exact h.1.symm
    subst hc
    exact (injectParams_frame n _ _ _ _ _ hp).1

theorem inject_error_inv {n : Nat} {C C1 : Container} {d : Dependent} {ev : List Event}
    {ie : InjectError} (h : Inject n C d = some (C1, ev, some ie)) :
    injectParams n d.ins C = some (C1, ev, .error ie) := by
  simp only [Inject] at h
  cases hp : injectParams n d.ins C with
  | none => simp [hp] at h
  | some x =>
    obtain ⟨c1, ev1, r1⟩ := x
    rw [hp] at h
    cases r1 with
    | error e =>
      simp only [Option.some.injEq, Prod.mk.injEq] at h
      obtain ⟨rfl, rfl, rfl⟩ := h
      rfl
    | ok vs => simp at h

/-- C11: on a wrapper with local registry `loc` and parent `P`, `Provide` is
`Provide` on `loc` and `ProvideLazily` is `ProvideLazily` on `loc`; the parent of
the resulting wrapper is `P` itself, with the same static and factory maps, so
that every `ByType` on it gives what it gave before; in particular `Provide(y)` on
`Wrap(P)` stores `y` in the new local registry only. -/
theorem wrapped_registration_is_local (loc : simple) (P : Container) :
    (∀ v contracts, Container.Provide (.wrapped loc P) v contracts =
      (loc.Provide v contracts).map (fun x => (Container.wrapped x.1 P, x.2))) ∧
    (∀ f, Container.ProvideLazily (.wrapped loc P) f = .wrapped (loc.ProvideLazily f) P) ∧
    (∀ v contracts W1 e, Container.Provide (.wrapped loc P) v contracts = some (W1, e) →
      W1.parentOf = some P) ∧
    (∀ f, (Container.ProvideLazily (.wrapped loc P) f).parentOf = some P) ∧
    (∀ y, Container.Provide (Wrap P) y [] =
      some (.wrapped { New with static := mapSet New.static y.ty y } P, none)) := by
  refine ⟨?_, fun _ => rfl, ?_, fun _ => rfl, ?_⟩
  · intro v contracts
    simp only [Container.Provide]
    cases loc.Provide v contracts with
    | none => rfl
    | some x => rfl
  · intro v contracts W1 e h
    simp only [Container.Provide] at h
    cases hp : loc.Provide v contracts with
    | none => simp [hp] at h
    | some x =>
      simp only [hp, Option.some.injEq, Prod.mk.injEq] at h
      obtain ⟨rfl, _⟩ := h
      rfl
  · intro y
    simp [Wrap, Container.Provide, simple.Provide]

/-- Witness for C11: the test "when wrapping another container": after
`Provide(pepperoniPizza)` on the wrapper the parent is unchanged and still has no
provider for `Pizza`. -/
theorem wrapped_registration_is_local_witness :
    Container.Provide (Wrap (.simple slicedRegistry)) (pizzaOf "pepperoni") [] =
        some (.wrapped pepperoniPizzaRegistry (.simple slicedRegistry), none) ∧
      (Container.wrapped pepperoniPizzaRegistry (.simple slicedRegistry)).parentOf =
        some (.simple slicedRegistry) ∧
      simple.ByType 1 slicedRegistry Pizza =
        some (slicedRegistry, [],
          .error "You can't always get what you want (divine_test.Pizza)") := by
  have h := wrapped_registration_is_local New (.simple slicedRegistry)
  have h1 : Container.Provide (Wrap (.simple slicedRegistry)) (pizzaOf "pepperoni") [] =
      some (.wrapped pepperoniPizzaRegistry (.simple slicedRegistry), none) :=
    h.2.2.2.2 (pizzaOf "pepperoni")
  exact ⟨h1, h.2.2.1 (pizzaOf "pepperoni") [] _ _ h1, rfl⟩

/-- C12 fails as stated: with `mushroomPizzaCreator` registered in the parent
only, `ByType(Pizza)` on the wrapper falls back to the parent, whose resolution
stores the pizza in the static map of the parent. -/
theorem wrapped_byType_memoizes_in_parent :
    Container.ByType 1 (Wrap (.simple mushroomRegistry)) Pizza =
        some (.wrapped New (.simple mushroomStoredRegistry), [Event.factory 10 Pizza []],
          .ok (pizzaOf "mushrooms")) ∧
      mushroomRegistry.static Pizza = none ∧
      mushroomStoredRegistry.static Pizza = some (pizzaOf "mushrooms") :=
  ⟨rfl, rfl, rfl⟩

/-- C12 (amended): `ByType(D)` and `Inject` on a wrapper with parent `P` leave a
wrapper whose parent `P1` has, in every registry of its chain, the factory map of
`P` and every static entry of `P`; `P1` is `P` when the local resolution
succeeds, and when it fails `P1` is what `P.ByType(D)` leaves. -/
theorem wrapped_byType_parent_frame (n : Nat) (loc : simple) (P : Container) :
    (∀ D W1 ev r, Container.ByType n (.wrapped loc P) D = some (W1, ev, r) →
      ∃ loc1 P1, W1 = .wrapped loc1 P1 ∧ ContainerFrame P P1 ∧
        (∀ l ev1 v, simple.ByType n loc D = some (l, ev1, .ok v) → P1 = P) ∧
        (∀ l ev1 e, simple.ByType n loc D = some (l, ev1, .error e) →
          ∃ ev2, Container.ByType n P D = some (P1, ev2, r))) ∧
    (∀ d W1 ev r, Inject n (.wrapped loc P) d = some (W1, ev, r) →
      ∃ loc1 P1, W1 = .wrapped loc1 P1 ∧ ContainerFrame P P1) := by
  constructor
  · intro D W1 ev r h
    rcases containerByType_wrapped_inv h with ⟨loc1, v, h1, rfl, _⟩ |
      ⟨loc1, ev1, e, P1, ev2, h1, h2, rfl, _⟩
    · refine ⟨loc1, P, rfl, containerFrame_refl P, fun _ _ _ _ => rfl, ?_⟩
      intro l ev1 e he
      rw [h1] at he
      simp at he
    · refine ⟨loc1, P1, rfl, containerByType_frame n _ _ _ _ _ h2, ?_, fun _ _ _ _ => ⟨ev2, h2⟩⟩
      intro l ev3 v hv
      rw [h1] at hv
      simp at hv
  · intro d W1 ev r h
    have hfr := inject_frame h
    cases W1 with
    | simple c1 => exact hfr.elim
    | wrapped loc1 P1 => exact ⟨loc1, P1, rfl, hfr.2⟩

/-- Witness for C12: the parent is unchanged when it answers from its static map,
and extended when it runs a factory. -/
theorem wrapped_byType_parent_frame_witness :
    ContainerFrame (.simple slicedRegistry) (.simple slicedRegistry) ∧
      ContainerFrame (.simple mushroomRegistry) (.simple mushroomStoredRegistry) := by
  have h1 : Container.ByType 1 (.wrapped pepperoniPizzaRegistry (.simple slicedRegistry)) Sliced =
      some (.wrapped pepperoniPizzaRegistry (.simple slicedRegistry), [],
        .ok (pizzaOf "mushroom")) := rfl
  have h2 : Container.ByType 1 (.wrapped New (.simple mushroomRegistry)) Pizza =
      some (.wrapped New (.simple mushroomStoredRegistry), [Event.factory 10 Pizza []],
        .ok (pizzaOf "mushrooms")) := rfl
  obtain ⟨l1, P1, e1, f1, _⟩ :=
    (wrapped_byType_parent_frame 1 pepperoniPizzaRegistry (.simple slicedRegistry)).1 _ _ _ _ h1
  obtain ⟨l2, P2, e2, f2, _⟩ :=
    (wrapped_byType_parent_frame 1 New (.simple mushroomRegistry)).1 _ _ _ _ h2
  cases e1
  cases e2
  exact ⟨f1, f2⟩

/-- C13 fails as stated: `Pizza` is registered locally by
`ProvideLazily(pizzaCreator)` and in the parent by `Provide(pepperoniPizza)`; the
local factory needs a `Topping`, which the local registry lacks, so the local
resolution fails and the wrapper returns the pizza of the parent. -/
theorem wrapped_falls_back_despite_local_factory :
    (New.ProvideLazily pizzaCreator).factories Pizza = some pizzaCreator ∧
      pepperoniPizzaRegistry.static Pizza = some (pizzaOf "pepperoni") ∧
      Container.ByType 2
          (.wrapped (New.ProvideLazily pizzaCreator) (.simple pepperoniPizzaRegistry)) Pizza =
        some (.wrapped (New.ProvideLazily pizzaCreator) (.simple pepperoniPizzaRegistry), [],
          .ok (pizzaOf "pepperoni")) :=
  ⟨rfl, rfl, rfl⟩

/-- C13 (amended): on a wrapper, `ByType(D)` returns the local static value of
`D` when there is one, and the product of the local factory of `D` when its
parameters resolve in the local registry and the guard does not trip, the parent
being left alone in both cases; when the local resolution of `D` fails, the
wrapper returns what the parent returns for `D`. -/
theorem wrapped_prefers_local_success (loc : simple) (P : Container) (D : Ty) :
    (∀ v, loc.static D = some v →
      ∀ n, Container.ByType (n + 1) (.wrapped loc P) D = some (.wrapped loc P, [], .ok v)) ∧
    (∀ f n loc1 ev vs, loc.static D = none → loc.factories D = some f →
      isCircular D f.ins loc.factories = false → ResolvesAll n loc f.ins loc1 ev vs →
      ∀ m, n + 1 ≤ m → Container.ByType m (.wrapped loc P) D =
        some (.wrapped { loc1 with static := mapSet loc1.static D (f.body vs) } P,
          ev ++ [Event.factory f.id D vs], .ok (f.body vs))) ∧
    (∀ n loc1 ev e, simple.ByType n loc D = some (loc1, ev, .error e) →
      Container.ByType n (.wrapped loc P) D =
        (Container.ByType n P D).map (fun x => (.wrapped loc1 x.1, ev ++ x.2.1, x.2.2))) := by
  refine ⟨?_, ?_, fun _ _ _ _ h => containerByType_wrapped_error P h⟩
  · intro v hv n
    apply containerByType_wrapped_ok
    simp [simple.ByType, hv]
  · intro f n loc1 ev vs hs hf hg hall m hm
    apply containerByType_wrapped_ok
    apply ByType_mono hm
    have hp := resolveParams_of_resolvesAll D f.ins hall hg
    simp [simple.ByType, hs, hf, hp]

/-- Witness for C13: the test "returns dependencies from the current
container". -/
theorem wrapped_prefers_local_success_witness :
    Container.ByType 1 (.wrapped pepperoniPizzaRegistry (.simple slicedRegistry)) Pizza =
      some (.wrapped pepperoniPizzaRegistry (.simple slicedRegistry), [],
        .ok (pizzaOf "pepperoni")) :=
  (wrapped_prefers_local_success pepperoniPizzaRegistry (.simple slicedRegistry) Pizza).1
    (pizzaOf "pepperoni") rfl 0

/-- C14 fails as stated: `Inject` of a `func(Pizza, Topping)` into the registry
holding `mushroomPizzaCreator` fails on `Topping`, after the pizza made for the
first parameter has been stored in the static map. -/
theorem inject_failure_leaves_memoized_value :
    Inject 1 (.simple mushroomRegistry) pizzaAndToppingEater =
        some (.simple mushroomStoredRegistry, [Event.factory 10 Pizza []],
          some ⟨Topping, "You can't always get what you want (divine_test.Topping)"⟩) ∧
      mushroomRegistry.static Pizza = none ∧
      mushroomStoredRegistry.static Pizza = some (pizzaOf "mushrooms") :=
  ⟨rfl, rfl, rfl⟩

/-- C14 (amended): when `Inject` returns an error, no dependent has been called,
and in every registry of the container the factory map is what it was and every
static entry is kept (entries memoized during the resolutions may have been
added). -/
theorem inject_failure_frame (n : Nat) (C C1 : Container) (d : Dependent) (ev : List Event)
    (ie : InjectError) (h : Inject n C d = some (C1, ev, some ie)) :
    (∀ e ∈ ev, e.isDependent = false) ∧ ContainerFrame C C1 :=
  ⟨(injectParams_frame n _ _ _ _ _ (inject_error_inv h)).2, inject_frame h⟩

/-- Witness for C14: the failed injection of a `func(Pizza, Topping)`. -/
theorem inject_failure_frame_witness :
    (∀ e ∈ [Event.factory 10 Pizza []], e.isDependent = false) ∧
      ContainerFrame (.simple mushroomRegistry) (.simple mushroomStoredRegistry) :=
  inject_failure_frame 1 (.simple mushroomRegistry) (.simple mushroomStoredRegistry)
    pizzaAndToppingEater [Event.factory 10 Pizza []]
    ⟨Topping, "You can't always get what you want (divine_test.Topping)"⟩ rfl

/-- C19: on a wrapper whose local registry holds a factory `f(Q) -> R`, no static
value for `R` and no provider for `Q`, the local resolution of `R` fails with the
not-found error naming `Q` without calling anything; `ByType(R)` on the wrapper
then returns exactly what the parent returns for `R`, calls included, which is the
not-found error naming `R` when the parent is a registry with no provider for
`R`; and `ByType(Q)` on the wrapper returns what the parent returns for `Q`. -/
theorem wrapped_factory_resolves_locally (loc : simple) (P : Container) (R Q : Ty)
    (f : Factory) (hs : loc.static R = none) (hf : loc.factories R = some f)
    (hins : f.ins = [Q]) (hQs : loc.static Q = none) (hQf : loc.factories Q = none) :
    (∀ n, simple.ByType (n + 2) loc R = some (loc, [], .error (errNotFound Q))) ∧
    (∀ n P1 ev r, Container.ByType (n + 2) P R = some (P1, ev, r) →
      Container.ByType (n + 2) (.wrapped loc P) R = some (.wrapped loc P1, ev, r)) ∧
    (∀ n p, P = .simple p → p.static R = none → p.factories R = none →
      Container.ByType (n + 2) (.wrapped loc P) R =
        some (.wrapped loc P, [], .error (errNotFound R))) ∧
    (∀ n P1 ev r, Container.ByType (n + 1) P Q = some (P1, ev, r) →
      Container.ByType (n + 1) (.wrapped loc P) Q = some (.wrapped loc P1, ev, r)) := by
  have hloc : ∀ n, simple.ByType (n + 2) loc R = some (loc, [], .error (errNotFound Q)) := by
    intro n
    simp [simple.ByType, resolveParams, isCircular, hs, hf, hins, hQs, hQf]
  have hR : ∀ n P1 ev r, Container.ByType (n + 2) P R = some (P1, ev, r) →
      Container.ByType (n + 2) (.wrapped loc P) R = some (.wrapped loc P1, ev, r) := by
    intro n P1 ev r h
    rw [containerByType_wrapped_error P (hloc n), h]
    simp
  refine ⟨hloc, hR, ?_, ?_⟩
  · intro n p hP hps hpf
    subst hP
    apply hR
    simp [Container.ByType, simple.ByType, hps, hpf]
  · intro n P1 ev r h
    have hq : simple.ByType (n + 1) loc Q = some (loc, [], .error (errNotFound Q)) := by
      simp [simple.ByType, hQs, hQf]
    rw [containerByType_wrapped_error P hq, h]
    simp

/-- Witness for C19: `pizzaCreator` registered in the wrapper, `Topping` provided
in the parent only. -/
theorem wrapped_factory_resolves_locally_witness :
    Container.ByType 2 (.wrapped (New.ProvideLazily pizzaCreator) (.simple toppingRegistry))
          Pizza =
        some (.wrapped (New.ProvideLazily pizzaCreator) (.simple toppingRegistry), [],
          .error "You can't always get what you want (divine_test.Pizza)") ∧
      Container.ByType 1 (.wrapped (New.ProvideLazily pizzaCreator) (.simple toppingRegistry))
          Topping =
        some (.wrapped (New.ProvideLazily pizzaCreator) (.simple toppingRegistry), [],
          .ok (toppingOf "pepperoni")) := by
  have h := wrapped_factory_resolves_locally (New.ProvideLazily pizzaCreator)
    (.simple toppingRegistry) Pizza Topping pizzaCreator rfl rfl rfl rfl rfl
  exact ⟨h.2.2.1 0 toppingRegistry rfl rfl rfl, h.2.2.2 0 _ _ _ rfl⟩

/-! ## Termination on acyclic registries -/

/-- In a registry with finitely many factories and no cycle, "is a parameter of
the factory of" is well founded. -/
theorem dependsOn_wellFounded (c : simple) (keys : List Ty)
    (hfin : ∀ t f, c.factories t = some f → t ∈ keys)
    (hacyc : ∀ t, ¬ Relation.TransGen (DependsOn c) t t) :
    WellFounded (fun p t => DependsOn c t p) := by
  let R : { t // t ∈ keys } → { t // t ∈ keys } → Prop :=
    fun a b => Relation.TransGen (DependsOn c) b.1 a.1
  haveI : IsTrans { t // t ∈ keys } R := ⟨fun _ _ _ hab hbd => Relation.TransGen.trans hbd hab⟩
  haveI : IsIrrefl { t // t ∈ keys } R := ⟨fun a h => hacyc a.1 h⟩
  have wf : WellFounded R := Finite.wellFounded_of_trans_of_irrefl R
  have leaf : ∀ t, t ∉ keys → Acc (fun p t => DependsOn c t p) t := by
    intro t ht
    refine Acc.intro t ?_
    rintro p ⟨f, hf, _⟩
    exact absurd (hfin t f hf) ht
  have key : ∀ a : { t // t ∈ keys }, Acc (fun p t => DependsOn c t p) a.1 := by
    intro a
    induction a using wf.induction with
    | _ a ih =>
      refine Acc.intro a.1 ?_
      intro p hp
      by_cases hpk : p ∈ keys
      · exact ih ⟨p, hpk⟩ (Relation.TransGen.single hp)
      · exact leaf p hpk
  refine ⟨fun t => ?_⟩
  by_cases ht : t ∈ keys
  · exact key ⟨t, ht⟩
  · exact leaf t ht

theorem errNotFound_ne_errCircular (q a b : Ty) : errNotFound q ≠ errCircular a b := by
  intro h
  have h2 := congrArg String.data h
  simp only [errNotFound, errCircular, String.data_append] at h2
  simp at h2

/-- The registry `pepperoniRegistry` has one factory, for `Pizza`, taking a
`Topping`: its dependency graph has no cycle. -/
theorem pepperoniRegistry_acyclic (t : Ty) :
    ¬ Relation.TransGen (DependsOn pepperoniRegistry) t t := by
  have hstep : ∀ a b, DependsOn pepperoniRegistry a b → a = Pizza ∧ b = Topping := by
    rintro a b ⟨f, hf, hb⟩
    by_cases ha : a = Pizza
    · subst ha
      have : f = pizzaCreator := by
        have h2 : pepperoniRegistry.factories Pizza = some pizzaCreator := rfl
        rw [h2] at hf
        exact (Option.some.inj hf).symm
      subst this
      have hb2 : b ∈ [Topping] := hb
      exact ⟨rfl, by simpa using hb2⟩
    · have h2 : pepperoniRegistry.factories a = none := by
        simp [pepperoniRegistry, simple.ProvideLazily, mapSet, New, ha, pizzaCreator]
      rw [h2] at hf
      cases hf
  have hgen : ∀ a b, Relation.TransGen (DependsOn pepperoniRegistry) a b → b = Topping := by
    intro a b h
    induction h with
    | single h1 => exact (hstep _ _ h1).2
    | tail _ h2 _ => exact (hstep _ _ h2).2
  intro h
  have h1 := hgen t t h
  subst h1
  rcases Relation.TransGen.head'_iff.1 h with ⟨x, hx, _⟩
  have := (hstep _ _ hx).1
  exact absurd this (by decide)

theorem uniform_depth (Q : Nat → Ty → Prop)
    (hmono : ∀ n m t, n ≤ m → Q n t → Q m t) :
    ∀ ps : List Ty, (∀ p ∈ ps, ∃ n, Q n p) → ∃ N, ∀ p ∈ ps, Q N p := by
  intro ps
  induction ps with
  | nil => intro _; exact ⟨0, fun p hp => by simp at hp⟩
  | cons p rest ih =>
    intro h
    obtain ⟨n1, h1⟩ := h p (by simp)
    obtain ⟨n2, h2⟩ := ih (fun q hq => h q (by simp [hq]))
    refine ⟨max n1 n2, ?_⟩
    intro q hq
    rcases List.mem_cons.1 hq with e | e
    · subst e
      exact hmono _ _ _ (le_max_left _ _) h1
    · exact hmono _ _ _ (le_max_right _ _) (h2 q e)

theorem resolvesWithin_mono (c : simple) (n m : Nat) (t : Ty) (hnm : n ≤ m)
    (h : ResolvesWithin c n t) : ResolvesWithin c m t := by
  intro c2 hc2
  obtain ⟨c1, ev, r, h1, h2⟩ := h c2 hc2
  exact ⟨c1, ev, r, ByType_mono hnm h1, h2⟩

theorem resolveParams_within (c : simple) (N : Nat) (need : Ty) (sig : List Ty)
    (hg : isCircular need sig c.factories = false) :
    ∀ ps : List Ty, (∀ p ∈ ps, ResolvesWithin c N p) →
      ∀ c2 : simple, c2.factories = c.factories →
        ∃ c1 ev r, resolveParams (simple.ByType N) need sig ps c2 = some (c1, ev, r) ∧
          ((∃ vs, r = .ok vs) ∨ ∃ q, r = .error (errNotFound q)) := by
  intro ps
  induction ps with
  | nil =>
    intro _ c2 _
    exact ⟨c2, [], .ok [], by simp [resolveParams], Or.inl ⟨[], rfl⟩⟩
  | cons p rest ih =>
    intro h c2 hc2
    have hg2 : isCircular need sig c2.factories = false := by rw [hc2]; exact hg
    obtain ⟨c0, ev1, r1, h1, hv1⟩ := h p (by simp) c2 hc2
    have hfr := ByType_frame _ _ _ _ _ _ h1
    rcases hv1 with ⟨v, rfl⟩ | ⟨q, rfl⟩
    · obtain ⟨c1, ev2, r2, h2, hv2⟩ :=
        ih (fun q hq => h q (by simp [hq])) c0 (hfr.1.trans hc2)
      rcases hv2 with ⟨vs, rfl⟩ | ⟨q, rfl⟩
      · exact ⟨c1, ev1 ++ ev2, .ok (v :: vs), by simp [resolveParams, hg2, h1, h2],
          Or.inl ⟨_, rfl⟩⟩
      · exact ⟨c1, ev1 ++ ev2, .error (errNotFound q), by simp [resolveParams, hg2, h1, h2],
          Or.inr ⟨_, rfl⟩⟩
    · exact ⟨c0, ev1, .error (errNotFound q), by simp [resolveParams, hg2, h1],
        Or.inr ⟨_, rfl⟩⟩

/-- C20: in a registry whose factories are keyed by finitely many descriptors and
whose dependency graph has no cycle, `ByType(D)` returns for every `D` once the
depth bound is large enough, and what it returns is a value or a not-found
error, never a circular-dependency error. -/
theorem byType_terminates_on_acyclic (c : simple) (keys : List Ty)
    (hfin : ∀ t f, c.factories t = some f → t ∈ keys)
    (hacyc : ∀ t, ¬ Relation.TransGen (DependsOn c) t t) (D : Ty) :
    ∃ n, ∀ m, n ≤ m → ∃ c1 ev r, simple.ByType m c D = some (c1, ev, r) ∧
      ValueOrNotFound r ∧ ∀ a b, r ≠ .error (errCircular a b) := by
  have hall : ∀ t, ∃ n, ResolvesWithin c n t := by
    intro t
    induction t using (dependsOn_wellFounded c keys hfin hacyc).induction with
    | _ t ih =>
      cases hf : c.factories t with
      | none =>
        refine ⟨1, ?_⟩
        intro c2 hc2
        cases hs : c2.static t with
        | some v => exact ⟨c2, [], .ok v, by simp [simple.ByType, hs], Or.inl ⟨v, rfl⟩⟩
        | none =>
          have hf2 : c2.factories t = none := by rw [hc2]; exact hf
          exact ⟨c2, [], .error (errNotFound t), by simp [simple.ByType, hs, hf2],
            Or.inr ⟨t, rfl⟩⟩
      | some f =>
        have hg : isCircular t f.ins c.factories = false := by
          cases hb : isCircular t f.ins c.factories with
          | false => rfl
          | true =>
            obtain ⟨p, hp, g, hgp, htg⟩ := (isCircular_iff t f.ins c.factories).1 hb
            exact absurd (Relation.TransGen.tail (Relation.TransGen.single ⟨f, hf, hp⟩)
              ⟨g, hgp, htg⟩) (hacyc t)
        obtain ⟨N, hN⟩ := uniform_depth (ResolvesWithin c) (resolvesWithin_mono c) f.ins
          (fun p hp => ih p ⟨f, hf, hp⟩)
        refine ⟨N + 1, ?_⟩
        intro c2 hc2
        cases hs : c2.static t with
        | some v => exact ⟨c2, [], .ok v, by simp [simple.ByType, hs], Or.inl ⟨v, rfl⟩⟩
        | none =>
          have hf2 : c2.factories t = some f := by rw [hc2]; exact hf
          obtain ⟨c1, ev, r, hp, hv⟩ := resolveParams_within c N t f.ins hg f.ins hN c2 hc2
          rcases hv with ⟨vs, rfl⟩ | ⟨q, rfl⟩
          · exact ⟨{ c1 with static := mapSet c1.static t (f.body vs) },
              ev ++ [Event.factory f.id t vs], .ok (f.body vs),
              by simp [simple.ByType, hs, hf2, hp], Or.inl ⟨_, rfl⟩⟩
          · exact ⟨c1, ev, .error (errNotFound q), by simp [simple.ByType, hs, hf2, hp],
              Or.inr ⟨_, rfl⟩⟩
  obtain ⟨n, hn⟩ := hall D
  refine ⟨n, fun m hm => ?_⟩
  obtain ⟨c1, ev, r, h1, h2⟩ := hn c rfl
  refine ⟨c1, ev, r, ByType_mono hm h1, h2, ?_⟩
  intro a b hr
  rcases h2 with ⟨v, rfl⟩ | ⟨q, rfl⟩
  · cases hr
  · exact errNotFound_ne_errCircular q a b (Except.error.inj hr)

/-- Witness for C20: the registry with `Topping("pepperoni")` and `pizzaCreator`. -/
theorem byType_terminates_on_acyclic_witness :
    ∃ n, ∀ m, n ≤ m → ∃ c1 ev r, simple.ByType m pepperoniRegistry Pizza = some (c1, ev, r) ∧
      ValueOrNotFound r ∧ ∀ a b, r ≠ .error (errCircular a b) :=
  byType_terminates_on_acyclic pepperoniRegistry [Pizza]
    (by
      intro t f hf
      by_contra hne
      have ht : t ≠ Pizza := by simpa using hne
      have h2 : pepperoniRegistry.factories t = none := by
        simp [pepperoniRegistry, simple.ProvideLazily, mapSet, New, ht, pizzaCreator]
      rw [h2] at hf
      cases hf)
    pepperoniRegistry_acyclic Pizza

end Divine
